import Mathlib

set_option maxRecDepth 4000
set_option maxHeartbeats 1600000

/-!
Verification development for the BEL statement parser, normalizer and
comparator of `bel_parser.py` (classes `BELParser` and `BELComparator`).

Modelling conventions:
* Python strings are modelled as `List Char` (all inputs are ASCII).
* Python floats are modelled as rationals `ℚ`.  Every score produced by the
  comparator is a sum of at most three of the constants 0.30, 0.20, 0.25 and
  0.10; for each such sum the double-precision result in the source equals the
  double nearest to the exact decimal total, so every comparison performed by
  the source (equality tests and the comparisons against 0.5 and 0.9) agrees
  with the rational model.
* The specific regular expressions of the source are embedded as direct
  left-to-right scanners.  Each pattern used by the source has the property
  that every starred/plus-quantified character class excludes the character
  that must follow it, so Python's backtracking search is equivalent to
  maximal munch; the scanners below exploit this and otherwise reproduce
  `re.search` (leftmost match) and `re.sub` (leftmost, non-overlapping,
  replacement not rescanned) semantics exactly.
-/

namespace BelSpec

/-- Python `\w` (ASCII): letters, digits and underscore. -/
def isWordChar (c : Char) : Bool := c.isAlphanum || c = '_'

/-- ASCII uppercase letter, the class `[A-Z]`. -/
def isUpper (c : Char) : Bool := 'A' ≤ c && c ≤ 'Z'

/-- ASCII lowercase letter, the class `[a-z]`. -/
def isLowerAlpha (c : Char) : Bool := 'a' ≤ c && c ≤ 'z'

/-- The character class `[A-Z0-9]`. -/
def isUpperDigit (c : Char) : Bool := isUpper c || c.isDigit

/-- The character class `[A-Za-z]`. -/
def isAlphaChar (c : Char) : Bool := isUpper c || isLowerAlpha c

/-- The character class `[A-Za-z0-9_\-]` of the entity-identifier pattern. -/
def isIdentChar (c : Char) : Bool := isAlphaChar c || c.isDigit || c = '_' || c = '-'

/-- Python `\s` and the default `str.strip` character set. -/
def isSpaceChar (c : Char) : Bool :=
  c = ' ' || c = '\t' || c = '\n' || c = '\r' || c = Char.ofNat 11 || c = Char.ofNat 12

/-- The single-quote character (written numerically). -/
def squote : Char := Char.ofNat 39

/-- Quote class `["\x27]` of the quote-cleanup pattern. -/
def isQuote (c : Char) : Bool := c = '"' || c = squote

/-- Python `str.strip()`: remove leading and trailing whitespace. -/
def pyStrip (l : List Char) : List Char :=
  ((l.dropWhile isSpaceChar).reverse.dropWhile isSpaceChar).reverse

/-- Python `str.strip(cs)`: remove leading and trailing characters of `cs`. -/
def pyStripSet (cs : List Char) (l : List Char) : List Char :=
  ((l.dropWhile (cs.contains ·)).reverse.dropWhile (cs.contains ·)).reverse

/-- Case-sensitive test that `pat` is an initial segment of `l`. -/
def hasPre (pat l : List Char) : Bool := l.take pat.length == pat

/-- Case-insensitive (ASCII) test that `pat` is an initial segment of `l`. -/
def ciHasPre (pat l : List Char) : Bool :=
  (l.take pat.length).map Char.toLower == pat.map Char.toLower

/-- Generic left-to-right scan-and-substitute loop: the semantics of `re.sub`
for the concrete patterns of the source.  At every position the matcher `tryM`
receives the previous original character (the lookbehind needed for `\b`) and
the remaining text and reports the replacement text together with the number
`n ≥ 1` of matched characters; on a match the scan resumes immediately after
the matched region of the original text (the replacement is not rescanned),
otherwise one character is kept and the scan advances. -/
def reSubFuel (tryM : Option Char → List Char → Option (List Char × Nat)) :
    Nat → Option Char → List Char → List Char
  | 0, _, l => l
  | _ + 1, _, [] => []
  | fuel + 1, prev, c :: cs =>
    match tryM prev (c :: cs) with
    | some (rep, n) => rep ++ reSubFuel tryM fuel (((c :: cs).take n).getLast?) (cs.drop (n - 1))
    | none => c :: reSubFuel tryM fuel (some c) cs

/-- Entry point of the substitute loop.  Every matcher used below consumes at
least one character per match, so the scan performs at most `l.length` steps
and the fuel `l.length + 1` is never exhausted. -/
def reSubAux (tryM : Option Char → List Char → Option (List Char × Nat))
    (prev : Option Char) (l : List Char) : List Char :=
  reSubFuel tryM (l.length + 1) prev l

/-- Matcher for `\b([A-Z][A-Z0-9]*):[\w\d]+ ! ([\w\d]+)` with replacement
`\1:\2` (method `normalize_indra_format`).  Every quantified class excludes
the following literal, so maximal munch is exact. -/
def tryNI (prev : Option Char) (l : List Char) : Option (List Char × Nat) :=
  if (prev.map isWordChar).getD false then none else
  match l with
  | [] => none
  | c :: cs =>
    if isUpper c then
      let nsRest := cs.takeWhile isUpperDigit
      let ns := c :: nsRest
      match cs.drop nsRest.length with
      | ':' :: r2 =>
        let code := r2.takeWhile isWordChar
        if code.isEmpty then none else
        match r2.drop code.length with
        | ' ' :: '!' :: ' ' :: r4 =>
          let nm := r4.takeWhile isWordChar
          if nm.isEmpty then none else
          some (ns ++ ':' :: nm, ns.length + 1 + code.length + 3 + nm.length)
        | _ => none
      | _ => none
    else none

/-- Method `normalize_indra_format`: rewrite `HGNC:391 ! AKT1` to `HGNC:AKT1`. -/
def normalize_indra_format (l : List Char) : List Char := reSubAux tryNI none l

/-- One case-insensitive literal substitution pass (`re.sub` with
`re.IGNORECASE` on a pattern with no metacharacters). -/
def subLitCI (pat rep : String) : List Char → List Char :=
  reSubAux (fun _ l => if ciHasPre pat.data l then some (rep.data, pat.data.length) else none) none

/-- One case-insensitive substitution pass for `\b<pat>\b` where `<pat>`
consists of word characters only (the abbreviation rows of the table). -/
def subWordCI (pat rep : String) : List Char → List Char :=
  reSubAux (fun prev l =>
    if (prev.map isWordChar).getD false then none
    else if ciHasPre pat.data l &&
        !(((l.drop pat.data.length).head?).map isWordChar).getD false then
      some (rep.data, pat.data.length)
    else none) none

/-- One case-insensitive substitution pass for `<goid> ! "[^"]+"` (the
GO-identifier-with-quoted-annotation rows of the table). -/
def subGoQuoted (goid rep : String) : List Char → List Char :=
  reSubAux (fun _ l =>
    let pre := goid.data ++ [' ', '!', ' ', '"']
    if ciHasPre pre l then
      let r := l.drop pre.length
      let inner := r.takeWhile (fun c => c ≠ '"')
      if inner.isEmpty then none
      else match r.drop inner.length with
        | '"' :: _ => some (rep.data, pre.length + inner.length + 1)
        | _ => none
    else none) none

/-- Matcher for the quote-cleanup pattern `["\x27]([A-Z][a-z]+)["\x27]` with
replacement `\1` (case-sensitive; the two quotes may differ). -/
def tryCleanQuote (l : List Char) : Option (List Char × Nat) :=
  match l with
  | q1 :: c :: cs =>
    if isQuote q1 && isUpper c then
      let low := cs.takeWhile isLowerAlpha
      if low.isEmpty then none else
      match cs.drop low.length with
      | q2 :: _ => if isQuote q2 then some (c :: low, low.length + 3) else none
      | _ => none
    else none
  | _ => none

/-- Method `normalize_modifications`: the `MODIFICATION_MAPPINGS` table applied
in source (insertion) order, each row as a case-insensitive `re.sub`, followed
by the quote-cleanup substitution. -/
def normalize_modifications (l : List Char) : List Char :=
  let n := subGoQuoted "go:0006468" "Ph" l
  let n := subGoQuoted "go:0006473" "Ac" n
  let n := subGoQuoted "go:0006479" "Me" n
  let n := subGoQuoted "go:0016567" "Ub" n
  let n := subGoQuoted "go:0016925" "Sumo" n
  let n := subLitCI "go:0006468" "Ph" n
  let n := subLitCI "go:0006473" "Ac" n
  let n := subLitCI "go:0006479" "Me" n
  let n := subLitCI "go:0016567" "Ub" n
  let n := subLitCI "go:0016925" "Sumo" n
  let n := subLitCI "phosphorylation" "Ph" n
  let n := subLitCI "acetylation" "Ac" n
  let n := subLitCI "methylation" "Me" n
  let n := subLitCI "ubiquitination" "Ub" n
  let n := subLitCI "ubiquitylation" "Ub" n
  let n := subLitCI "sumoylation" "Sumo" n
  let n := subWordCI "Ph" "Ph" n
  let n := subWordCI "Ac" "Ac" n
  let n := subWordCI "Me" "Me" n
  let n := subWordCI "Ub" "Ub" n
  let n := subWordCI "Sumo" "Sumo" n
  reSubAux (fun _ l => tryCleanQuote l) none n

/-- The normalization pipeline as invoked by `BELParser.parse` and
`BELParser.parse_component`: `normalize_indra_format` then
`normalize_modifications`. -/
def normalizeText (l : List Char) : List Char :=
  normalize_modifications (normalize_indra_format l)

/-! ### Entity, modification and component model (dataclasses of the source) -/

/-- Dataclass `BELEntity`.  The Python field `namespace` is a Lean keyword and
is called `nspace` here. -/
structure BELEntity where
  nspace : Option (List Char)
  identifier : Option (List Char)
  raw_text : List Char
deriving DecidableEq, Repr

/-- Property `BELEntity.core_id`.  The source tests `namespace and identifier`
by Python truthiness, so empty strings also fall back to the raw text. -/
def BELEntity.core_id (e : BELEntity) : List Char :=
  match e.nspace, e.identifier with
  | some ns, some i => if ns.isEmpty || i.isEmpty then e.raw_text else ns ++ ':' :: i
  | _, _ => e.raw_text

/-- Leftmost match of the entity pattern
`\b([A-Z][A-Z0-9]+):([A-Za-z0-9_\-]+|"[^"]+")` (method `extract_entity`);
returns the two capture groups, group 2 still carrying its quotes. -/
def entitySearch : Option Char → List Char → Option (List Char × List Char)
  | _, [] => none
  | prev, c :: cs =>
    (if !(prev.map isWordChar).getD false && isUpper c then
      let nsRest := cs.takeWhile isUpperDigit
      if nsRest.isEmpty then none else
      match cs.drop nsRest.length with
      | ':' :: r2 =>
        let ident := r2.takeWhile isIdentChar
        if !ident.isEmpty then some (c :: nsRest, ident)
        else match r2 with
          | '"' :: r3 =>
            let inner := r3.takeWhile (fun d => d ≠ '"')
            if inner.isEmpty then none
            else match r3.drop inner.length with
              | '"' :: _ => some (c :: nsRest, '"' :: (inner ++ ['"']))
              | _ => none
          | _ => none
      | _ => none
    else none).orElse (fun _ => entitySearch (some c) cs)

/-- Method `BELParser.extract_entity`. -/
def extract_entity (text : List Char) : BELEntity :=
  match entitySearch none text with
  | some (ns, g2) =>
    { nspace := some ns, identifier := some (pyStripSet ['"'] g2), raw_text := text }
  | none => { nspace := none, identifier := none, raw_text := pyStrip text }

/-- Dataclass `BELModification`. -/
structure BELModification where
  mod_type : List Char
  residue : Option (List Char)
  position : Option Nat
deriving DecidableEq, Repr

/-- Method `BELModification.matches`. -/
def BELModification.matches (m o : BELModification) (strict : Bool) : Bool :=
  if m.mod_type ≠ o.mod_type then false
  else if strict then m.residue == o.residue && m.position == o.position
  else true

/-- Numeric value of a digit string (Python `int`). -/
def natOfDigits (l : List Char) : Nat :=
  l.foldl (fun n c => n * 10 + (c.toNat - 48)) 0

/-- Match of `pmod\(([^,\)]+)(?:,\s*([A-Za-z]{3})(?:,\s*(\d+))?)?\)` anchored
at the head of the text (method `extract_modification`).  The group
`[^,\)]+` excludes both characters that may follow it and `\s*`/`\d+` exclude
theirs, so Python's backtracking cannot rescue a failed deterministic parse
and the else-chains below are exact. -/
def pmodAt (l : List Char) : Option BELModification :=
  if hasPre "pmod(".data l then
    let r := l.drop 5
    let g1 := r.takeWhile (fun c => c ≠ ',' && c ≠ ')')
    if g1.isEmpty then none else
    match r.drop g1.length with
    | ')' :: _ => some { mod_type := g1, residue := none, position := none }
    | ',' :: r2 =>
      let ws := r2.takeWhile isSpaceChar
      match r2.drop ws.length with
      | a :: b :: c :: r4 =>
        if isAlphaChar a && isAlphaChar b && isAlphaChar c then
          match r4 with
          | ')' :: _ => some { mod_type := g1, residue := some [a, b, c], position := none }
          | ',' :: r5 =>
            let ws2 := r5.takeWhile isSpaceChar
            let r6 := r5.drop ws2.length
            let digits := r6.takeWhile Char.isDigit
            if digits.isEmpty then none else
            match r6.drop digits.length with
            | ')' :: _ =>
              some { mod_type := g1, residue := some [a, b, c],
                     position := some (natOfDigits digits) }
            | _ => none
          | _ => none
        else none
      | _ => none
    | _ => none
  else none

/-- Leftmost `pmod(...)` match in the text (`re.search`). -/
def pmodSearch : List Char → Option BELModification
  | [] => none
  | c :: cs =>
    match pmodAt (c :: cs) with
    | some m => some m
    | none => pmodSearch cs

/-- Method `BELParser.extract_modification`: the type group is stripped and
run through `normalize_modifications`; residue and position stay as matched. -/
def extract_modification (text : List Char) : Option BELModification :=
  (pmodSearch text).map fun m =>
    { m with mod_type := normalize_modifications (pyStrip m.mod_type) }

/-- Dataclass `BELComponent`. -/
structure BELComponent where
  core_entity : BELEntity
  has_activity : Bool
  activity_type : Option (List Char)
  modification : Option BELModification
  is_complex : Bool
  complex_members : List BELEntity
  raw_text : List Char
deriving DecidableEq, Repr

/-- Match of `<intro>[^)]+\)` anchored at the head: returns the inner group
and the matched length. -/
def litParenAt (intro : List Char) (l : List Char) : Option (List Char × Nat) :=
  if hasPre intro l then
    let r := l.drop intro.length
    let g := r.takeWhile (fun c => c ≠ ')')
    if g.isEmpty then none
    else match r.drop g.length with
      | ')' :: _ => some (g, intro.length + g.length + 1)
      | _ => none
  else none

/-- Leftmost match of `<intro>[^)]+\)`, returning the inner group; used for
`ma\(([^)]+)\)` and (via reassembly) `act\((p\([^)]+\))`. -/
def litParenSearch (intro : List Char) : List Char → Option (List Char)
  | [] => none
  | c :: cs =>
    match litParenAt intro (c :: cs) with
    | some (g, _) => some g
    | none => litParenSearch intro cs

/-- All matches of `p\([^)]+\)` in order (`re.findall`), resuming after each
match (source `_parse_complex`). -/
def pTermsFuel : Nat → List Char → List (List Char)
  | 0, _ => []
  | _ + 1, [] => []
  | fuel + 1, c :: cs =>
    match litParenAt "p(".data (c :: cs) with
    | some (g, n) => ("p(".data ++ g ++ [')']) :: pTermsFuel fuel (cs.drop (n - 1))
    | none => pTermsFuel fuel cs

/-- Entry point for the `p\([^)]+\)` findall; fuel as in `reSubAux`. -/
def pTermsFind (l : List Char) : List (List Char) := pTermsFuel (l.length + 1) l

/-- Core entity of a complex: its first member, falling back to a bare
raw-text entity when the complex has no `p(...)` members. -/
def complexCore (members : List BELEntity) (text : List Char) : BELEntity :=
  match members with
  | e :: _ => e
  | [] => { nspace := none, identifier := none, raw_text := text }

/-- Method `BELParser._parse_complex`. -/
def parse_complex (text : List Char) : BELComponent :=
  let member_entities := (pTermsFind text).map extract_entity
  { core_entity := complexCore member_entities text, has_activity := false,
    activity_type := none, modification := none, is_complex := true,
    complex_members := member_entities, raw_text := text }

/-- The non-complex branch of `BELParser.parse_component`: activity
unwrapping, entity and modification extraction.  `text` is the stripped
original span, `ntext` its normalized form. -/
def parse_simple (text ntext : List Char) : BELComponent :=
  let has_activity := hasPre "act(".data ntext
  let activity_type :=
    if has_activity then (litParenSearch "ma(".data ntext).map (pyStripSet ['"', squote])
    else none
  let protein_text :=
    if has_activity then
      match litParenSearch "act(p(".data ntext with
      | some inner => "p(".data ++ inner ++ [')']
      | none => ntext
    else ntext
  { core_entity := extract_entity protein_text,
    has_activity := has_activity,
    activity_type := activity_type,
    modification := extract_modification protein_text,
    is_complex := false, complex_members := [], raw_text := text }

/-- Branch selection of `parse_component` over the `complex(`-test. -/
def componentBranch (text ntext : List Char) : Bool → BELComponent
  | true => parse_complex ntext
  | false => parse_simple text ntext

/-- Method `BELParser.parse_component`. -/
def parse_component (text : List Char) : BELComponent :=
  let text := pyStrip text
  let ntext := normalizeText text
  componentBranch text ntext (hasPre "complex(".data ntext)

/-! ### Statements and relationship detection -/

/-- Dataclass `BELStatement`. -/
structure BELStatement where
  subject : BELComponent
  relationship : Option String
  object : Option BELComponent
  raw_statement : List Char
deriving DecidableEq, Repr

/-- Method `BELStatement.is_comparable`. -/
def BELStatement.is_comparable (s : BELStatement) : Bool :=
  s.relationship.isSome && s.object.isSome

/-- The `RELATIONSHIPS` vocabulary sorted with
`sorted(key=len, reverse=True)`: stable descending by length, equal lengths in
original list order (19, 19, 17, 17, 14, 12, 11, 9, 9, 9, 6, 3, 3, 3, 3, 3). -/
def sortedRelationships : List String :=
  ["positiveCorrelation", "negativeCorrelation", "directlyIncreases",
   "directlyDecreases", "causesNoChange", "hasComponent", "association",
   "increases", "decreases", "regulates", "partOf", "cnc", "isA", "pos",
   "neg", "reg"]

/-- Word-boundary match of the keyword `kw` (letters only) at the head of `l`
with lookbehind `prev`: the regex `\b<kw>\b`. -/
def wordBoundAt (kw : List Char) (prev : Option Char) (l : List Char) : Bool :=
  !(prev.map isWordChar).getD false && hasPre kw l &&
    !(((l.drop kw.length).head?).map isWordChar).getD false

/-- Scan for the leftmost word-boundary occurrence of `kw`, tracking the
previous character and the current index. -/
def findBoundaryAux (kw : List Char) : Option Char → List Char → Nat → Option Nat
  | _, [], _ => none
  | prev, c :: cs, i =>
    if wordBoundAt kw prev (c :: cs) then some i
    else findBoundaryAux kw (some c) cs (i + 1)

/-- Leftmost start index of `\b<kw>\b` in `l` (`re.search` on one keyword). -/
def findBoundary (kw : String) (l : List Char) : Option Nat :=
  findBoundaryAux kw.data none l 0

/-- The relationship-detection loop of `BELParser.parse`: try the keywords in
`sortedRelationships` order and stop at the first that occurs anywhere on a
word boundary, returning the keyword with the start and end of its leftmost
occurrence. -/
def findRelAux : List String → List Char → Option (String × Nat × Nat)
  | [], _ => none
  | rel :: rest, n =>
    match findBoundary rel n with
    | some p => some (rel, p, p + rel.length)
    | none => findRelAux rest n

/-- Relationship detection over the full sorted vocabulary. -/
def find_relationship (n : List Char) : Option (String × Nat × Nat) :=
  findRelAux sortedRelationships n

/-- The two outcomes of `BELParser.parse` over the detection result: split at
the detected keyword, or fall back to a lone subject. -/
def splitResult (st n : List Char) : Option (String × Nat × Nat) → BELStatement
  | some (rel, rs, re2) =>
    { subject := parse_component (pyStrip (n.take rs)),
      relationship := some rel,
      object := some (parse_component (pyStrip (n.drop re2))),
      raw_statement := st }
  | none =>
    { subject := parse_component n, relationship := none,
      object := none, raw_statement := st }

/-- Method `BELParser.parse`. -/
def parse (statement : String) : BELStatement :=
  let st := pyStrip statement.data
  let normalized := normalizeText st
  splitResult st normalized (find_relationship normalized)

/-! ### Relationship groups and compatibility -/

/-- The `RELATIONSHIP_GROUPS` table in dict insertion order; the sets are kept
as lists, membership being all that is used. -/
def RELATIONSHIP_GROUPS : List (String × List String) :=
  [("positive", ["increases", "directlyIncreases", "pos", "positiveCorrelation"]),
   ("negative", ["decreases", "directlyDecreases", "neg", "negativeCorrelation"]),
   ("structural", ["partOf", "hasComponent", "isA"]),
   ("regulatory", ["regulates", "reg"]),
   ("neutral", ["association", "causesNoChange", "cnc"])]

/-- Method `BELParser.get_relationship_group`: the first group containing the
relationship, in table order. -/
def get_relationship_group (rel : String) : Option String :=
  ((RELATIONSHIP_GROUPS.find? (fun g => g.2.contains rel)).map (·.1))

/-- Method `BELParser.relationships_compatible`. -/
def relationships_compatible (r1 r2 : String) : Bool :=
  if r1 == r2 then true
  else
    match get_relationship_group r1, get_relationship_group r2 with
    | some g1, some g2 => g1 == g2
    | _, _ => false

/-! ### The score-details dictionary -/

/-- Value of one details entry: a boolean or the nested `components` map. -/
inductive DetailVal where
  | b : Bool → DetailVal
  | m : List (String × Bool) → DetailVal
deriving DecidableEq, Repr

/-- The details dictionary, modelled as an insertion-ordered association
list exactly like a Python dict. -/
abbrev Details := List (String × DetailVal)

/-- Dict assignment `d[k] = v`: replace in place if the key exists, else
append. -/
def setKey (d : List (String × α)) (k : String) (v : α) : List (String × α) :=
  if d.any (fun p => p.1 == k) then d.map (fun p => if p.1 == k then (k, v) else p)
  else d ++ [(k, v)]

/-- Dict lookup `d.get(k)`. -/
def getKey? (d : List (String × α)) (k : String) : Option α :=
  (d.find? (fun p => p.1 == k)).map (·.2)

/-- Assignment `details["components"][k] = v` on the nested map. -/
def setCompKey (d : Details) (k : String) (v : Bool) : Details :=
  let comp := match getKey? d "components" with
    | some (.m mm) => mm
    | _ => []
  setKey d "components" (.m (setKey comp k v))

/-- Lookup in the nested `components` map. -/
def getCompKey? (d : Details) (k : String) : Option Bool :=
  match getKey? d "components" with
  | some (.m mm) => getKey? mm k
  | _ => none

/-- `details.get(k, False)` under Python truthiness (a non-empty nested dict
is truthy; the keys read this way always hold booleans in the source). -/
def detGetBool (d : Details) (k : String) : Bool :=
  match getKey? d k with
  | some (.b v) => v
  | some (.m mm) => !mm.isEmpty
  | none => false

/-- The dict literal that opens `calculate_match_score`. -/
def initDetails : Details :=
  [("comparable", .b false), ("core_entities_match", .b false),
   ("relationship_match", .b false), ("relationship_compatible", .b false),
   ("modification_match", .b false), ("activity_match", .b false),
   ("components", .m [])]

/-! ### The comparator -/

/-- Method `BELComponent.get_all_entities` (a set in the source; the list
form is used only for non-emptiness of intersections, for which duplicates
are irrelevant). -/
def entsOf (c : BELComponent) : List BELEntity := c.core_entity :: c.complex_members

/-- Non-emptiness of the intersection of two entity sets; source entities
compare equal iff their `core_id`s are equal. -/
def entsIntersect (a b : List BELEntity) : Bool :=
  a.any (fun e => b.any (fun f => e.core_id == f.core_id))

/-- The relationship contribution of the score in twentieths (0.30 = 6/20,
0.20 = 4/20): +0.30 on identical relationship strings, else +0.20 on
compatible ones.  Scores are kept as natural numerators over the fixed
denominator 20 because every float the source can produce is a sum drawn
from 0.30/0.20/0.25/0.10, each an exact multiple of 1/20 at which the
source's double-precision sums and comparisons agree with exact
arithmetic. -/
def relationshipScoreN (r1 r2 : String) : Nat :=
  if r1 == r2 then 6
  else if relationships_compatible r1 r2 then 4
  else 0

/-- The modification contribution for one side, in twentieths (0.25 = 5/20,
0.10 = 2/20): +0.25 on a strict match or when both sides are unmodified,
+0.10 on a loose (type-only) match. -/
def modScoreN (m1 m2 : Option BELModification) : Nat :=
  match m1, m2 with
  | some a, some b =>
    if a.matches b true then 5
    else if a.matches b false then 2
    else 0
  | none, none => 5
  | _, _ => 0

/-- Whether one side's modifications match strictly (feeds the
`modification_match` flag). -/
def modExact (m1 m2 : Option BELModification) : Bool :=
  match m1, m2 with
  | some a, some b => a.matches b true
  | _, _ => false

/-- Method `BELComparator.calculate_match_score`.  The four-way match is the
`is_comparable` gate (both statements must have a relationship and an
object); the score accumulations of the source are regrouped into the helper
functions above, summed in the same order. -/
def calculate_match_score (s1 s2 : BELStatement) : ℚ × Details :=
  match s1.relationship, s1.object, s2.relationship, s2.object with
  | some r1, some o1, some r2, some o2 =>
    let subject_match := entsIntersect (entsOf s1.subject) (entsOf s2.subject)
    let object_match := entsIntersect (entsOf o1) (entsOf o2)
    let d := setCompKey (setCompKey initDetails "subject_entities_match" subject_match)
      "object_entities_match" object_match
    if subject_match && object_match then
      let d := setKey d "comparable" (.b true)
      let d := setKey d "core_entities_match" (.b true)
      let d :=
        if r1 == r2 then
          setKey (setKey d "relationship_match" (.b true)) "relationship_compatible" (.b true)
        else if relationships_compatible r1 r2 then
          setKey d "relationship_compatible" (.b true)
        else d
      let scoreNum : Nat := relationshipScoreN r1 r2
        + modScoreN s1.subject.modification s2.subject.modification
        + modScoreN o1.modification o2.modification
      let score : ℚ := mkRat scoreNum 20
      let d := setKey d "modification_match"
        (.b (modExact s1.subject.modification s2.subject.modification
          || modExact o1.modification o2.modification))
      let d := if s1.subject.has_activity == s2.subject.has_activity then
          setKey d "activity_match" (.b true)
        else d
      (score, d)
    else (0, d)
  | _, _, _, _ => (0, initDetails)

/-! ### The bipartite matcher (`BELComparator.find_best_matches`)

The source records carry the matched statement strings; the model
additionally records the indices `i`, `j` they came from (the source stores
`llm_statements[i]` and `indra_statements[j]`), which the one-to-one claims
are about.  The optimal branch calls scipy's `linear_sum_assignment`, an
external library modelled by its contract: the zipped `(row, column)` pairs
appear as an explicit `assignment` argument, and theorems that need them
assume the solver guarantees (pairwise-distinct rows and columns). -/

/-- One record of the result list of `find_best_matches`. -/
structure MatchResult where
  llm_statement : Option String
  indra_statement : Option String
  llm_index : Option Nat
  indra_index : Option Nat
  match_type : String
  score : ℚ
  details : Details
deriving DecidableEq, Repr

/-- Fallback statement for out-of-range matrix access; every access is
guarded by a range check in the source, so it is never observable. -/
def dfltStmt : BELStatement := parse ""

/-- The score and details matrices, as one pairwise evaluation. -/
def scoreDetailsAt (llm indra : List String) (i j : Nat) : ℚ × Details :=
  calculate_match_score ((llm.map parse).getD i dfltStmt) ((indra.map parse).getD j dfltStmt)

/-- Entry `score_matrix[i][j]`. -/
def scoreAt (llm indra : List String) (i j : Nat) : ℚ := (scoreDetailsAt llm indra i j).1

/-- Entry `details_matrix[i][j]`. -/
def detailsAt (llm indra : List String) (i j : Nat) : Details := (scoreDetailsAt llm indra i j).2

/-- The guard `details.get('comparable', False)`. -/
def comparableAt (llm indra : List String) (i j : Nat) : Bool :=
  detGetBool (detailsAt llm indra i j) "comparable"

/-- An `llm_only` record for index `i`. -/
def llmOnlyRes (llm : List String) (i : Nat) : MatchResult :=
  { llm_statement := llm.get? i, indra_statement := none, llm_index := some i,
    indra_index := none, match_type := "llm_only", score := 0, details := [] }

/-- An `indra_only` record for index `j`. -/
def indraOnlyRes (indra : List String) (j : Nat) : MatchResult :=
  { llm_statement := none, indra_statement := indra.get? j, llm_index := none,
    indra_index := some j, match_type := "indra_only", score := 0, details := [] }

/-- A matched record for the pair `(i, j)` with the given score; `exact_match`
at score ≥ 0.9 (= 18/20), else `core_match`. -/
def matchedRes (llm indra : List String) (score : ℚ) (i j : Nat) : MatchResult :=
  { llm_statement := llm.get? i, indra_statement := indra.get? j,
    llm_index := some i, indra_index := some j,
    match_type := if mkRat 9 10 ≤ score then "exact_match" else "core_match",
    score := score, details := detailsAt llm indra i j }

/-- The degenerate branch taken when either input list is empty. -/
def emptyCaseResults (llm indra : List String) : List MatchResult :=
  (List.range llm.length).map (llmOnlyRes llm)
    ++ (List.range indra.length).map (indraOnlyRes indra)

/-- All `(score, i, j)` tuples in the enumeration order of the greedy branch
(`i` outer, `j` inner).  Details of a tuple are recovered from the details
matrix at emission below; the source carries `details_matrix[i][j]` inside
each tuple, which is the same dictionary. -/
def allPairs (llm indra : List String) : List (ℚ × Nat × Nat) :=
  (List.range llm.length).flatMap fun i =>
    (List.range indra.length).map fun j => (scoreAt llm indra i j, i, j)

/-- The candidate list of the greedy branch: the pairs scoring at least
`threshold` and flagged comparable. -/
def candPairs (llm indra : List String) (threshold : ℚ) : List (ℚ × Nat × Nat) :=
  (allPairs llm indra).filter fun c =>
    decide (threshold ≤ c.1) && comparableAt llm indra c.2.1 c.2.2

/-- Descending tuple order of the greedy branch: the source sorts the tuples
`(score, i, j, details)` with `sort(reverse=True)`, i.e. descending
lexicographically by `(score, i, j)` (the dictionary is never compared since
all `(i, j)` pairs are distinct). -/
def keyGe (a b : ℚ × Nat × Nat) : Prop :=
  b.1 < a.1 ∨ (b.1 = a.1 ∧ (b.2.1 < a.2.1 ∨ (b.2.1 = a.2.1 ∧ b.2.2 ≤ a.2.2)))

instance : DecidableRel keyGe := fun a b => by unfold keyGe; exact inferInstance

instance : IsTotal (ℚ × Nat × Nat) keyGe where
  total a b := by
    unfold keyGe
    rcases lt_trichotomy a.1 b.1 with h | h | h
    · exact Or.inr (Or.inl h)
    · rcases lt_trichotomy a.2.1 b.2.1 with h2 | h2 | h2
      · exact Or.inr (Or.inr ⟨h, Or.inl h2⟩)
      · rcases Nat.le_total b.2.2 a.2.2 with h3 | h3
        · exact Or.inl (Or.inr ⟨h.symm, Or.inr ⟨h2.symm, h3⟩⟩)
        · exact Or.inr (Or.inr ⟨h, Or.inr ⟨h2, h3⟩⟩)
      · exact Or.inl (Or.inr ⟨h.symm, Or.inl h2⟩)
    · exact Or.inl (Or.inl h)

instance : IsTrans (ℚ × Nat × Nat) keyGe where
  trans a b c hab hbc := by
    unfold keyGe at *
    rcases hab with h1 | ⟨e1, h1⟩
    · rcases hbc with h2 | ⟨e2, _⟩
      · exact Or.inl (h2.trans h1)
      · exact Or.inl (e2 ▸ h1)
    · rcases hbc with h2 | ⟨e2, h2⟩
      · exact Or.inl (e1 ▸ h2)
      · refine Or.inr ⟨e2.trans e1, ?_⟩
        rcases h1 with h1 | ⟨f1, h1⟩
        · rcases h2 with h2 | ⟨f2, _⟩
          · exact Or.inl (h2.trans h1)
          · exact Or.inl (f2 ▸ h1)
        · rcases h2 with h2 | ⟨f2, h2⟩
          · exact Or.inl (f1 ▸ h2)
          · exact Or.inr ⟨f2.trans f1, h2.trans h1⟩

instance : IsAntisymm (ℚ × Nat × Nat) keyGe where
  antisymm a b hab hba := by
    unfold keyGe at *
    rcases hab with h1 | ⟨e1, h1⟩
    · rcases hba with h2 | ⟨e2, _⟩
      · exact absurd (h1.trans h2) (lt_irrefl _)
      · exact absurd h1 (e2 ▸ lt_irrefl _)
    · rcases hba with h2 | ⟨e2, h2⟩
      · exact absurd h2 (e1 ▸ lt_irrefl _)
      · have hq : a.1 = b.1 := e1.symm
        have hij : a.2 = b.2 := by
          rcases h1 with h1 | ⟨f1, h1⟩
          · rcases h2 with h2 | ⟨f2, _⟩
            · exact absurd (h1.trans h2) (lt_irrefl _)
            · exact absurd h1 (f2 ▸ lt_irrefl _)
          · rcases h2 with h2 | ⟨f2, h2⟩
            · exact absurd h2 (f1 ▸ lt_irrefl _)
            · exact Prod.ext f1.symm (le_antisymm h2 h1)
        exact Prod.ext hq hij

/-- The sorted candidate list of the greedy branch.  `insertionSort` is used
for the model: the keys of `candPairs` are pairwise distinct (each `(i, j)`
occurs once), so the descending order is unique and any correct sort -- in
particular Python's -- produces this list. -/
def sortedCandidates (llm indra : List String) (threshold : ℚ) : List (ℚ × Nat × Nat) :=
  List.insertionSort keyGe (candPairs llm indra threshold)

/-- State of the assignment loops: accumulated results and the
`matched_llm` / `matched_indra` sets. -/
structure GState where
  results : List MatchResult
  ml : List Nat
  mr : List Nat
deriving Repr

/-- Initial assignment state. -/
def initState : GState := ⟨[], [], []⟩

/-- One step of the greedy assignment over a sorted candidate tuple. -/
def gStep (llm indra : List String) (st : GState) (c : ℚ × Nat × Nat) : GState :=
  if st.ml.contains c.2.1 || st.mr.contains c.2.2 then st
  else
    { results := st.results ++ [matchedRes llm indra c.1 c.2.1 c.2.2],
      ml := st.ml ++ [c.2.1], mr := st.mr ++ [c.2.2] }

/-- One step of the optimal branch over an assignment pair `(i, j)`: keep it
when in range, scoring at least the threshold and comparable. -/
def oStep (llm indra : List String) (threshold : ℚ) (st : GState) (p : Nat × Nat) : GState :=
  if p.1 < llm.length && p.2 < indra.length then
    if decide (threshold ≤ scoreAt llm indra p.1 p.2) && comparableAt llm indra p.1 p.2 then
      { results := st.results ++ [matchedRes llm indra (scoreAt llm indra p.1 p.2) p.1 p.2],
        ml := st.ml ++ [p.1], mr := st.mr ++ [p.2] }
    else st
  else st

/-- The trailing loops appending `llm_only` / `indra_only` records for the
unassigned indices. -/
def addUnmatched (llm indra : List String) (st : GState) : List MatchResult :=
  st.results
    ++ (List.range llm.length).filterMap
        (fun i => if st.ml.contains i then none else some (llmOnlyRes llm i))
    ++ (List.range indra.length).filterMap
        (fun j => if st.mr.contains j then none else some (indraOnlyRes indra j))

/-- `find_best_matches` along the greedy fallback branch (scipy absent). -/
def find_best_matches_greedy (llm indra : List String) (threshold : ℚ) : List MatchResult :=
  if llm.isEmpty || indra.isEmpty then emptyCaseResults llm indra
  else addUnmatched llm indra
    ((sortedCandidates llm indra threshold).foldl (gStep llm indra) initState)

/-- `find_best_matches` along the optimal branch, the solver output
`zip(row_ind, col_ind)` passed in as `assignment`. -/
def find_best_matches_opt (assignment : List (Nat × Nat)) (llm indra : List String)
    (threshold : ℚ) : List MatchResult :=
  if llm.isEmpty || indra.isEmpty then emptyCaseResults llm indra
  else addUnmatched llm indra (assignment.foldl (oStep llm indra threshold) initState)

/-- Whether a record reports the matched pair `(i, j)`. -/
def isMatchedPair (r : MatchResult) (i j : Nat) : Bool :=
  r.llm_index == some i && r.indra_index == some j &&
    (r.match_type == "core_match" || r.match_type == "exact_match")

/-! ### Shape and bound of the score -/

theorem relationshipScoreN_le (r1 r2 : String) : relationshipScoreN r1 r2 ≤ 6 := by
  unfold relationshipScoreN; split_ifs <;> omega

theorem modScoreN_le (m1 m2 : Option BELModification) : modScoreN m1 m2 ≤ 5 := by
  rcases m1 with _ | a <;> rcases m2 with _ | b
  all_goals simp only [modScoreN]
  any_goals omega
  split_ifs <;> omega

theorem mkRat_le_mkRat20 {a b : Nat} (h : a ≤ b) : mkRat a 20 ≤ mkRat b 20 := by
  rw [Rat.mkRat_eq_div, Rat.mkRat_eq_div]
  apply div_le_div_of_nonneg_right ?_ (by norm_num)
  exact_mod_cast h

/-- Every score of `calculate_match_score` is either the early-exit 0 or a
sum of at most 6 + 5 + 5 = 16 twentieths over the gate-passing branch. -/
theorem score_cases (s1 s2 : BELStatement) :
    (calculate_match_score s1 s2).1 = 0 ∨
    ∃ n : Nat, n ≤ 16 ∧ (calculate_match_score s1 s2).1 = mkRat n 20 := by
  rcases h1 : s1.relationship with _ | r1 <;> rcases h2 : s1.object with _ | o1 <;>
    rcases h3 : s2.relationship with _ | r2 <;> rcases h4 : s2.object with _ | o2 <;>
    simp only [calculate_match_score, h1, h2, h3, h4]
  all_goals try exact Or.inl trivial
  all_goals split_ifs <;>
    first
      | exact Or.inl rfl
      | (refine Or.inr ⟨relationshipScoreN r1 r2
            + modScoreN s1.subject.modification s2.subject.modification
            + modScoreN o1.modification o2.modification, ?_, rfl⟩
         have := relationshipScoreN_le r1 r2
         have := modScoreN_le s1.subject.modification s2.subject.modification
         have := modScoreN_le o1.modification o2.modification
         omega)

/-- The score is bounded by 16/20 = 0.80. -/
theorem score_le_max (s1 s2 : BELStatement) :
    (calculate_match_score s1 s2).1 ≤ mkRat 16 20 := by
  rcases score_cases s1 s2 with h | ⟨n, hn, h⟩
  · rw [h, Rat.mkRat_eq_div]; positivity
  · rw [h]; exact mkRat_le_mkRat20 hn

theorem mkRat16_eq : (mkRat 16 20 : ℚ) = 4/5 := by norm_num [Rat.mkRat_eq_div]

/-! ### Claim C1 -/

/-- Claim C1 as stated is refuted: a score of 1.0 is not attainable for any
pair of statements (parsed or otherwise), because every score is at most
0.80 (the claim asserts attainability of 1.0). -/
theorem C1_counterexample : ¬ ∃ s1 s2 : BELStatement, (calculate_match_score s1 s2).1 = 1 := by
  rintro ⟨s1, s2, h⟩
  have hb := score_le_max s1 s2
  rw [h, mkRat16_eq] at hb
  norm_num at hb

/-- Claim C1, amended: the maximum attainable score of
`calculate_match_score` is 0.80, not 1.0; every score is at most
0.30 + 0.25 + 0.25 = 0.80, and 0.80 is attained by a parsed pair with an
identical relationship and strict subject- and object-modification
agreement (here: a statement compared with itself). -/
theorem C1_amended_max_score :
    (∀ s1 s2 : BELStatement, (calculate_match_score s1 s2).1 ≤ 4/5) ∧
    (calculate_match_score (parse "p(HGNC:AKT1) increases p(HGNC:GSK3B)")
      (parse "p(HGNC:AKT1) increases p(HGNC:GSK3B)")).1 = 4/5 := by
  constructor
  · intro s1 s2
    have := score_le_max s1 s2
    rwa [mkRat16_eq] at this
  · rw [show (4/5 : ℚ) = mkRat 16 20 from mkRat16_eq.symm]
    decide

/-! ### Claim C2 -/

/-- Claim C2 as stated is refuted: on the concrete pair the two object
modifications are both `pmod(Ph)` with no residue and no position, so they
match strictly (`None == None` on both optional fields) and contribute +0.25
rather than the claimed loose +0.10; the score is 0.70, not 0.55. -/
theorem C2_counterexample :
    (calculate_match_score (parse "p(HGNC:AKT1) directlyIncreases p(HGNC:GSK3B, pmod(Ph))")
      (parse "p(HGNC:AKT1) increases p(HGNC:GSK3B, pmod(Ph))")).1 = 7/10 ∧
    (7/10 : ℚ) ≠ 11/20 := by
  constructor
  · rw [show (7/10 : ℚ) = mkRat 14 20 by norm_num [Rat.mkRat_eq_div]]
    decide
  · norm_num

/-- Claim C2, amended: the concrete pair scores
0.20 (compatible-but-not-identical relationship) + 0.25 (both sides without
subject modification) + 0.25 (object modifications match strictly: equal
type, both residue and position absent) = 0.70, the strict object match sets
the `modification_match` flag, and `find_best_matches` at threshold 0.5
classifies the pair as `core_match` on the greedy branch as well as on the
optimal branch under the solver assignment `[(0, 0)]`. -/
theorem C2_amended_concrete :
    (calculate_match_score (parse "p(HGNC:AKT1) directlyIncreases p(HGNC:GSK3B, pmod(Ph))")
      (parse "p(HGNC:AKT1) increases p(HGNC:GSK3B, pmod(Ph))")).1 = 7/10 ∧
    detGetBool (calculate_match_score
      (parse "p(HGNC:AKT1) directlyIncreases p(HGNC:GSK3B, pmod(Ph))")
      (parse "p(HGNC:AKT1) increases p(HGNC:GSK3B, pmod(Ph))")).2 "modification_match" = true ∧
    (find_best_matches_greedy ["p(HGNC:AKT1) directlyIncreases p(HGNC:GSK3B, pmod(Ph))"]
      ["p(HGNC:AKT1) increases p(HGNC:GSK3B, pmod(Ph))"] (1/2)).map (·.match_type)
      = ["core_match"] ∧
    (find_best_matches_opt [(0, 0)] ["p(HGNC:AKT1) directlyIncreases p(HGNC:GSK3B, pmod(Ph))"]
      ["p(HGNC:AKT1) increases p(HGNC:GSK3B, pmod(Ph))"] (1/2)).map (·.match_type)
      = ["core_match"] := by
  rw [show (7/10 : ℚ) = mkRat 14 20 by norm_num [Rat.mkRat_eq_div],
    show (1/2 : ℚ) = mkRat 1 2 by norm_num [Rat.mkRat_eq_div]]
  refine ⟨by decide, by decide, by decide, by decide⟩

/-! ### Claim C3 -/

/-- The fixed list of match types that `find_best_matches` can actually
produce. -/
def attainableTypes : List String := ["core_match", "llm_only", "indra_only"]

theorem mkRat16_lt_nine_tenths : (mkRat 16 20 : ℚ) < mkRat 9 10 := by
  norm_num [Rat.mkRat_eq_div]

/-- A matched record built from any comparator score is a `core_match`. -/
theorem matchedRes_core (llm indra : List String) (score : ℚ) (i j : Nat)
    (h : score ≤ mkRat 16 20) :
    (matchedRes llm indra score i j).match_type = "core_match" := by
  unfold matchedRes
  simp only
  rw [if_neg]
  intro hc
  exact absurd (hc.trans h) (not_le.mpr mkRat16_lt_nine_tenths)

/-- The matrix entries inherit the score bound. -/
theorem scoreAt_le (llm indra : List String) (i j : Nat) :
    scoreAt llm indra i j ≤ mkRat 16 20 :=
  score_le_max _ _

/-- Every tuple of the candidate list carries the matrix score of its own
index pair. -/
theorem mem_sortedCandidates_score {llm indra : List String} {t : ℚ}
    {c : ℚ × Nat × Nat} (h : c ∈ sortedCandidates llm indra t) :
    c.1 = scoreAt llm indra c.2.1 c.2.2 := by
  rw [sortedCandidates, List.mem_insertionSort] at h
  rw [candPairs] at h
  have h2 := List.of_mem_filter h
  have h1 := List.mem_of_mem_filter h
  rw [allPairs] at h1
  simp only [List.mem_flatMap, List.mem_map, List.mem_range] at h1
  obtain ⟨i, _, j, _, rfl⟩ := h1
  rfl

/-- Invariant propagation for the greedy fold: every result present after
folding a candidate list is either initial or a `core_match` record. -/
theorem foldl_gStep_types (llm indra : List String) :
    ∀ (L : List (ℚ × Nat × Nat)), (∀ c ∈ L, c.1 ≤ mkRat 16 20) →
    ∀ st : GState, (∀ r ∈ st.results, r.match_type ∈ attainableTypes) →
    ∀ r ∈ (L.foldl (gStep llm indra) st).results, r.match_type ∈ attainableTypes := by
  intro L
  induction L with
  | nil => intro _ st hst r hr; exact hst r hr
  | cons c cs ih =>
    intro hL st hst
    refine ih (fun d hd => hL d (List.mem_cons_of_mem _ hd)) _ ?_
    intro r hr
    unfold gStep at hr
    split_ifs at hr
    · exact hst r hr
    · rcases List.mem_append.mp hr with h | h
      · exact hst r h
      · rcases List.mem_singleton.mp h with rfl
        rw [matchedRes_core llm indra _ _ _ (hL c (List.mem_cons_self c cs))]
        exact List.mem_cons_self _ _

/-- Invariant propagation for the optimal-branch fold. -/
theorem foldl_oStep_types (llm indra : List String) (t : ℚ) :
    ∀ (L : List (Nat × Nat)),
    ∀ st : GState, (∀ r ∈ st.results, r.match_type ∈ attainableTypes) →
    ∀ r ∈ (L.foldl (oStep llm indra t) st).results, r.match_type ∈ attainableTypes := by
  intro L
  induction L with
  | nil => intro st hst r hr; exact hst r hr
  | cons p ps ih =>
    intro st hst
    refine ih _ ?_
    intro r hr
    unfold oStep at hr
    split_ifs at hr
    · rcases List.mem_append.mp hr with h | h
      · exact hst r h
      · rcases List.mem_singleton.mp h with rfl
        rw [matchedRes_core llm indra _ _ _ (scoreAt_le llm indra p.1 p.2)]
        exact List.mem_cons_self _ _
    · exact hst r hr
    · exact hst r hr

/-- Match types of the trailing unmatched records. -/
theorem addUnmatched_types (llm indra : List String) (st : GState)
    (hst : ∀ r ∈ st.results, r.match_type ∈ attainableTypes) :
    ∀ r ∈ addUnmatched llm indra st, r.match_type ∈ attainableTypes := by
  intro r hr
  unfold addUnmatched at hr
  rcases List.mem_append.mp hr with h | h
  · rcases List.mem_append.mp h with h | h
    · exact hst r h
    · obtain ⟨i, _, hi⟩ := List.mem_filterMap.mp h
      split_ifs at hi
      rcases Option.some_inj.mp hi with rfl
      simp [llmOnlyRes, attainableTypes]
  · obtain ⟨j, _, hj⟩ := List.mem_filterMap.mp h
    split_ifs at hj
    rcases Option.some_inj.mp hj with rfl
    simp [indraOnlyRes, attainableTypes]

/-- Match types of the degenerate branch. -/
theorem emptyCase_types (llm indra : List String) :
    ∀ r ∈ emptyCaseResults llm indra, r.match_type ∈ attainableTypes := by
  intro r hr
  unfold emptyCaseResults at hr
  rcases List.mem_append.mp hr with h | h <;> obtain ⟨i, _, rfl⟩ := List.mem_map.mp h
  · simp [llmOnlyRes, attainableTypes]
  · simp [indraOnlyRes, attainableTypes]

/-- Claim C3, confirmed: `find_best_matches` never returns an `exact_match`
record on either branch, because every comparator score is at most
0.80 < 0.9; every returned record is a `core_match`, `llm_only` or
`indra_only`. -/
theorem C3_no_exact_match :
    (∀ (llm indra : List String) (t : ℚ) (r : MatchResult),
      r ∈ find_best_matches_greedy llm indra t → r.match_type ∈ attainableTypes) ∧
    (∀ (asg : List (Nat × Nat)) (llm indra : List String) (t : ℚ) (r : MatchResult),
      r ∈ find_best_matches_opt asg llm indra t → r.match_type ∈ attainableTypes) := by
  constructor
  · intro llm indra t r hr
    unfold find_best_matches_greedy at hr
    split_ifs at hr
    · exact emptyCase_types llm indra r hr
    · refine addUnmatched_types llm indra _ ?_ r hr
      refine foldl_gStep_types llm indra _ ?_ initState (by intro r hr; cases hr)
      intro c hc
      rw [mem_sortedCandidates_score hc]
      exact score_le_max _ _
  · intro asg llm indra t r hr
    unfold find_best_matches_opt at hr
    split_ifs at hr
    · exact emptyCase_types llm indra r hr
    · exact addUnmatched_types llm indra _
        (foldl_oStep_types llm indra t asg initState (by intro r hr; cases hr)) r hr

/-- Witness for C3 at a concrete run: the single record returned for the C2
pair has an attainable match type. -/
theorem C3_witness :
    ((find_best_matches_greedy ["p(HGNC:AKT1) directlyIncreases p(HGNC:GSK3B, pmod(Ph))"]
      ["p(HGNC:AKT1) increases p(HGNC:GSK3B, pmod(Ph))"] (mkRat 1 2)).getD 0
        (llmOnlyRes [] 0)).match_type ∈ attainableTypes :=
  C3_no_exact_match.1 ["p(HGNC:AKT1) directlyIncreases p(HGNC:GSK3B, pmod(Ph))"]
    ["p(HGNC:AKT1) increases p(HGNC:GSK3B, pmod(Ph))"] (mkRat 1 2) _ (by decide)

/-! ### Claim C5 -/

/-- Whether an optional details entry is present and holds a boolean. -/
def isBoolEntry : Option DetailVal → Bool
  | some (.b _) => true
  | _ => false

/-- Claim C5 as stated is refuted: on the first early-exit path (either
statement not comparable) the returned `components` map is the untouched
empty dict and contains neither `subject_entities_match` nor
`object_entities_match`; the keys are only added after the comparability
check. -/
theorem C5_counterexample :
    getKey? (calculate_match_score (parse "p(HGNC:AKT1)") (parse "p(HGNC:GSK3B)")).2
      "components" = some (.m []) ∧
    getCompKey? (calculate_match_score (parse "p(HGNC:AKT1)") (parse "p(HGNC:GSK3B)")).2
      "subject_entities_match" = none ∧
    getCompKey? (calculate_match_score (parse "p(HGNC:AKT1)") (parse "p(HGNC:GSK3B)")).2
      "object_entities_match" = none := by
  refine ⟨by decide, by decide, by decide⟩

/-- Claim C5, amended: the details returned by `calculate_match_score`
always contain the six boolean flags `comparable`, `core_entities_match`,
`relationship_match`, `relationship_compatible`, `modification_match` and
`activity_match` (with false defaults on early exits), and the `components`
map contains the keys `subject_entities_match` and `object_entities_match`
exactly when both statements are comparable (so also on the entity-gate
failure exit), but not on the earlier not-comparable exit, where
`components` stays empty. -/
theorem C5_amended_details_keys (s1 s2 : BELStatement) :
    (isBoolEntry (getKey? (calculate_match_score s1 s2).2 "comparable") = true ∧
     isBoolEntry (getKey? (calculate_match_score s1 s2).2 "core_entities_match") = true ∧
     isBoolEntry (getKey? (calculate_match_score s1 s2).2 "relationship_match") = true ∧
     isBoolEntry (getKey? (calculate_match_score s1 s2).2 "relationship_compatible") = true ∧
     isBoolEntry (getKey? (calculate_match_score s1 s2).2 "modification_match") = true ∧
     isBoolEntry (getKey? (calculate_match_score s1 s2).2 "activity_match") = true) ∧
    ((getCompKey? (calculate_match_score s1 s2).2 "subject_entities_match").isSome
       = (s1.is_comparable && s2.is_comparable)) ∧
    ((getCompKey? (calculate_match_score s1 s2).2 "object_entities_match").isSome
       = (s1.is_comparable && s2.is_comparable)) := by
  rcases h1 : s1.relationship with _ | r1 <;> rcases h2 : s1.object with _ | o1 <;>
    rcases h3 : s2.relationship with _ | r2 <;> rcases h4 : s2.object with _ | o2 <;>
    simp only [calculate_match_score, h1, h2, h3, h4, BELStatement.is_comparable] <;>
    try (split_ifs <;>
      simp [setCompKey, setKey, getKey?, getCompKey?, initDetails, isBoolEntry])
  all_goals simp [setCompKey, setKey, getKey?, getCompKey?, initDetails, isBoolEntry]

/-! ### Claim C4 -/

/-- Word-boundary occurrence of `kw` at index `p` of `l` (the characters
before index `p` being the original lookbehind context). -/
def occursAt (kw : List Char) (l : List Char) (p : Nat) : Bool :=
  wordBoundAt kw ((l.take p).getLast?) (l.drop p)

theorem take_succ_getLast? (c : Char) (cs : List Char) (k : Nat) (hk : k ≤ cs.length) :
    ((c :: cs).take (k + 1)).getLast? = if k = 0 then some c else (cs.take k).getLast? := by
  cases k with
  | zero => simp
  | succ m =>
    have ht : cs.take (m + 1) ≠ [] := by
      intro he
      rcases List.take_eq_nil_iff.mp he with h | h
      · exact Nat.succ_ne_zero m h
      · rw [h] at hk; simp at hk
    rcases hcs : cs.take (m + 1) with _ | ⟨x, xs⟩
    · exact absurd hcs ht
    · rw [if_neg (Nat.succ_ne_zero m), List.take_succ_cons, hcs, List.getLast?_cons_cons]

/-- Soundness of the boundary scan: a reported index is a word-boundary
occurrence, and it is the leftmost one. -/
theorem fbAux_sound (kw : List Char) :
    ∀ (l : List Char) (prev : Option Char) (i p : Nat),
      findBoundaryAux kw prev l i = some p →
      ∃ k, p = i + k ∧ k ≤ l.length ∧
        wordBoundAt kw (if k = 0 then prev else (l.take k).getLast?) (l.drop k) = true ∧
        ∀ m < k, wordBoundAt kw (if m = 0 then prev else (l.take m).getLast?) (l.drop m) = false := by
  intro l
  induction l with
  | nil => intro prev i p h; simp [findBoundaryAux] at h
  | cons c cs ih =>
    intro prev i p h
    simp only [findBoundaryAux] at h
    split_ifs at h with hw
    · obtain rfl := Option.some_inj.mp h
      exact ⟨0, by omega, Nat.zero_le _, by simpa using hw,
        fun m hm => absurd hm (Nat.not_lt_zero m)⟩
    · obtain ⟨k, rfl, hkle, hmatch, hmin⟩ := ih (some c) (i + 1) p h
      refine ⟨k + 1, by omega, by simpa using Nat.succ_le_succ hkle, ?_, ?_⟩
      · rw [if_neg (Nat.succ_ne_zero k), take_succ_getLast? c cs k hkle, List.drop_succ_cons]
        exact hmatch
      · intro m hm
        cases m with
        | zero => simpa using hw
        | succ m' =>
          have hm'k : m' < k := by omega
          have hrec := hmin m' hm'k
          rw [if_neg (Nat.succ_ne_zero m'),
            take_succ_getLast? c cs m' (by omega), List.drop_succ_cons]
          exact hrec

/-- A failed boundary scan means no word-boundary occurrence exists (within
the text; `kw` nonempty). -/
theorem fbAux_none (kw : List Char) (hkw : kw ≠ []) :
    ∀ (l : List Char) (prev : Option Char) (i : Nat),
      findBoundaryAux kw prev l i = none →
      ∀ k ≤ l.length,
        wordBoundAt kw (if k = 0 then prev else (l.take k).getLast?) (l.drop k) = false := by
  intro l
  induction l with
  | nil =>
    intro prev i _ k hk
    have hk0 : k = 0 := Nat.le_zero.mp hk
    subst hk0
    have hne : (([] : List Char) == kw) = false := beq_eq_false_iff_ne.mpr (Ne.symm hkw)
    simp [wordBoundAt, hasPre, hne]
  | cons c cs ih =>
    intro prev i h k hk
    simp only [findBoundaryAux] at h
    by_cases hw : wordBoundAt kw prev (c :: cs) = true
    · rw [if_pos hw] at h; cases h
    · rw [if_neg hw] at h
      cases k with
      | zero => simpa using hw
      | succ m =>
        have hm : m ≤ cs.length := by simpa using hk
        rw [if_neg (Nat.succ_ne_zero m), take_succ_getLast? c cs m hm, List.drop_succ_cons]
        exact ih (some c) (i + 1) h m hm

/-- `findBoundary` soundness in terms of `occursAt`. -/
theorem findBoundary_sound {kw : String} {l : List Char} {p : Nat}
    (h : findBoundary kw l = some p) :
    p ≤ l.length ∧ occursAt kw.data l p = true ∧ ∀ q < p, occursAt kw.data l q = false := by
  obtain ⟨k, hp, hkle, hmatch, hmin⟩ := fbAux_sound kw.data l none 0 p h
  have hif : ∀ m, (if m = 0 then (none : Option Char) else (l.take m).getLast?)
      = (l.take m).getLast? := by
    intro m; cases m <;> simp
  simp only [Nat.zero_add] at hp
  subst hp
  refine ⟨by omega, ?_, ?_⟩
  · rw [occursAt, ← hif p]; exact hmatch
  · intro q hq
    rw [occursAt, ← hif q]
    exact hmin q hq

/-- `findBoundary` completeness: on a `none` result no word-boundary
occurrence exists anywhere. -/
theorem findBoundary_none_occurs {kw : String} (hkw : kw.data ≠ []) {l : List Char}
    (h : findBoundary kw l = none) : ∀ p, occursAt kw.data l p = false := by
  intro p
  by_cases hp : p ≤ l.length
  · have := fbAux_none kw.data hkw l none 0 h p hp
    rw [occursAt]
    rcases Nat.eq_zero_or_pos p with rfl | hpos
    · simpa using this
    · rwa [if_neg (by omega)] at this
  · have hdrop : l.drop p = [] := List.drop_eq_nil_of_le (by omega)
    have hne : (([] : List Char) == kw.data) = false := beq_eq_false_iff_ne.mpr (Ne.symm hkw)
    simp [occursAt, wordBoundAt, hdrop, hasPre, hne]

/-- Soundness of the keyword loop: the reported keyword is the first of the
list with any word-boundary occurrence, reported at its leftmost start. -/
theorem findRelAux_sound :
    ∀ (rels : List String) (n : List Char) (rel : String) (p e : Nat),
      findRelAux rels n = some (rel, p, e) →
      ∃ pre suf, rels = pre ++ rel :: suf ∧ (∀ r ∈ pre, findBoundary r n = none) ∧
        findBoundary rel n = some p ∧ e = p + rel.length := by
  intro rels
  induction rels with
  | nil => intro n rel p e h; simp [findRelAux] at h
  | cons r rs ih =>
    intro n rel p e h
    simp only [findRelAux] at h
    cases hfb : findBoundary r n with
    | some q =>
      rw [hfb] at h
      obtain ⟨rfl, rfl, rfl⟩ : r = rel ∧ q = p ∧ q + r.length = e := by
        injection h with h'
        injection h' with h1 h2
        injection h2 with h3 h4
        exact ⟨h1, h3, by rw [← h4, h1]⟩
      exact ⟨[], rs, rfl, by simp, hfb, rfl⟩
    | none =>
      rw [hfb] at h
      obtain ⟨pre, suf, rfl, hpre, hrel, he⟩ := ih n rel p e h
      refine ⟨r :: pre, suf, rfl, ?_, hrel, he⟩
      intro s hs
      rcases List.mem_cons.mp hs with rfl | hs
      · exact hfb
      · exact hpre s hs

/-- Completeness of the keyword loop. -/
theorem findRelAux_none :
    ∀ (rels : List String) (n : List Char), findRelAux rels n = none →
      ∀ r ∈ rels, findBoundary r n = none := by
  intro rels
  induction rels with
  | nil => intro n _ r hr; cases hr
  | cons x rs ih =>
    intro n h r hr
    simp only [findRelAux] at h
    cases hfb : findBoundary x n with
    | some q => rw [hfb] at h; cases h
    | none =>
      rw [hfb] at h
      rcases List.mem_cons.mp hr with rfl | hr
      · exact hfb
      · exact ih n h r hr

/-- Every vocabulary keyword is nonempty. -/
theorem sortedRels_ne : ∀ r ∈ sortedRelationships, r.data ≠ [] := by decide

/-- Shape of `parse` when relationship detection succeeds. -/
theorem parse_eq_of_find (s : String) (rel : String) (p e : Nat)
    (hfr : find_relationship (normalizeText (pyStrip s.data)) = some (rel, p, e)) :
    parse s =
      { subject := parse_component (pyStrip ((normalizeText (pyStrip s.data)).take p)),
        relationship := some rel,
        object := some (parse_component (pyStrip ((normalizeText (pyStrip s.data)).drop e))),
        raw_statement := pyStrip s.data } := by
  have hd : parse s = splitResult (pyStrip s.data) (normalizeText (pyStrip s.data))
      (find_relationship (normalizeText (pyStrip s.data))) := rfl
  rw [hd, hfr]
  rfl

/-- Claim C4 as stated is refuted: in the statement below the keyword
`increases` occurs on a word boundary at index 10 of the normalized text,
strictly before the occurrence of `directlyIncreases` at index 30, yet the
parser splits at `directlyIncreases` (subject span
`p(HGNC:A) increases p(HGNC:B)`), not at the leftmost keyword occurrence
(which would give relationship `increases` and subject `p(HGNC:A)`). -/
theorem C4_counterexample :
    findBoundary "increases"
      (normalizeText (pyStrip
        "p(HGNC:A) increases p(HGNC:B) directlyIncreases p(HGNC:C)".data)) = some 10 ∧
    findBoundary "directlyIncreases"
      (normalizeText (pyStrip
        "p(HGNC:A) increases p(HGNC:B) directlyIncreases p(HGNC:C)".data)) = some 30 ∧
    "increases" ∈ sortedRelationships ∧
    (parse "p(HGNC:A) increases p(HGNC:B) directlyIncreases p(HGNC:C)").relationship
      = some "directlyIncreases" ∧
    (parse "p(HGNC:A) increases p(HGNC:B) directlyIncreases p(HGNC:C)").relationship
      ≠ some "increases" ∧
    (parse "p(HGNC:A) increases p(HGNC:B) directlyIncreases p(HGNC:C)").subject.raw_text
      = "p(HGNC:A) increases p(HGNC:B)".data := by
  refine ⟨by decide, by decide, by decide, by decide, by decide, by decide⟩

/-- Claim C4, amended: relationship detection tries the keywords in
longest-string-first order (ties in the original vocabulary order) and
selects the first keyword in that order that occurs anywhere in the
normalized statement on a word boundary -- not the leftmost occurrence
across the whole vocabulary; the statement is split at the leftmost
occurrence of the selected keyword, text strictly before it becoming the
subject span and text strictly after it the object span. -/
theorem C4_amended_split (s : String)
    (h : ∃ r ∈ sortedRelationships,
      ∃ p < (normalizeText (pyStrip s.data)).length,
        occursAt r.data (normalizeText (pyStrip s.data)) p = true) :
    ∃ rel pre suf p,
      sortedRelationships = pre ++ rel :: suf ∧
      (∀ r ∈ pre, ∀ q, occursAt r.data (normalizeText (pyStrip s.data)) q = false) ∧
      occursAt rel.data (normalizeText (pyStrip s.data)) p = true ∧
      (∀ q < p, occursAt rel.data (normalizeText (pyStrip s.data)) q = false) ∧
      (parse s).relationship = some rel ∧
      (parse s).subject
        = parse_component (pyStrip ((normalizeText (pyStrip s.data)).take p)) ∧
      (parse s).object
        = some (parse_component
            (pyStrip ((normalizeText (pyStrip s.data)).drop (p + rel.length)))) := by
  cases hfr : find_relationship (normalizeText (pyStrip s.data)) with
  | none =>
    exfalso
    obtain ⟨r, hr, p, _, hocc⟩ := h
    have hnone := findRelAux_none sortedRelationships _ hfr r hr
    have := findBoundary_none_occurs (sortedRels_ne r hr) hnone p
    rw [hocc] at this
    cases this
  | some v =>
    obtain ⟨rel, p, e⟩ := v
    obtain ⟨pre, suf, hsplit, hpre, hrel, rfl⟩ :=
      findRelAux_sound sortedRelationships _ rel p e hfr
    obtain ⟨_, hocc, hmin⟩ := findBoundary_sound hrel
    have hps := parse_eq_of_find s rel p (p + rel.length) hfr
    refine ⟨rel, pre, suf, p, hsplit, ?_, hocc, hmin, ?_, ?_, ?_⟩
    · intro r hrp q
      exact findBoundary_none_occurs
        (sortedRels_ne r (hsplit ▸ List.mem_append_left _ hrp)) (hpre r hrp) q
    all_goals rw [hps]

/-- Witness for the amended C4 at the counterexample input. -/
theorem C4_witness :
    ∃ rel pre suf p,
      sortedRelationships = pre ++ rel :: suf ∧
      (∀ r ∈ pre, ∀ q, occursAt r.data (normalizeText (pyStrip
        "p(HGNC:A) increases p(HGNC:B) directlyIncreases p(HGNC:C)".data)) q = false) ∧
      occursAt rel.data (normalizeText (pyStrip
        "p(HGNC:A) increases p(HGNC:B) directlyIncreases p(HGNC:C)".data)) p = true ∧
      (∀ q < p, occursAt rel.data (normalizeText (pyStrip
        "p(HGNC:A) increases p(HGNC:B) directlyIncreases p(HGNC:C)".data)) q = false) ∧
      (parse "p(HGNC:A) increases p(HGNC:B) directlyIncreases p(HGNC:C)").relationship
        = some rel ∧
      (parse "p(HGNC:A) increases p(HGNC:B) directlyIncreases p(HGNC:C)").subject
        = parse_component (pyStrip ((normalizeText (pyStrip
            "p(HGNC:A) increases p(HGNC:B) directlyIncreases p(HGNC:C)".data)).take p)) ∧
      (parse "p(HGNC:A) increases p(HGNC:B) directlyIncreases p(HGNC:C)").object
        = some (parse_component (pyStrip ((normalizeText (pyStrip
            "p(HGNC:A) increases p(HGNC:B) directlyIncreases p(HGNC:C)".data)).drop
              (p + rel.length)))) :=
  C4_amended_split "p(HGNC:A) increases p(HGNC:B) directlyIncreases p(HGNC:C)"
    ⟨"directlyIncreases", by decide, 30, by decide, by decide⟩

/-! ### Claim C6 -/

/-- The processing order asserted by claim C6 for the greedy candidate list:
among tuples of equal score, smaller LLM index `i` first, then smaller
reference index `j`. -/
def tieAscending (l : List (ℚ × Nat × Nat)) : Prop :=
  List.Pairwise (fun a b => a.1 = b.1 →
    a.2.1 < b.2.1 ∨ (a.2.1 = b.2.1 ∧ a.2.2 < b.2.2)) l

instance : ∀ l, Decidable (tieAscending l) := fun _ => List.instDecidablePairwise _

/-- LLM side of a concrete 2×2 run in which all four candidate pairs score
equally (0.70 each: compatible relationships, no modifications). -/
def llmC6 : List String :=
  ["p(HGNC:A) increases p(HGNC:B)", "p(HGNC:A) directlyIncreases p(HGNC:B)"]

/-- Reference side of the concrete 2×2 tie run. -/
def indraC6 : List String :=
  ["p(HGNC:A) pos p(HGNC:B)", "p(HGNC:A) positiveCorrelation p(HGNC:B)"]

/-- Claim C6 as stated is refuted: in the all-tied 2×2 run the greedy branch
processes the candidates in the order (1,1), (1,0), (0,1), (0,0) -- Python's
`sort(reverse=True)` on `(score, i, j, ...)` tuples puts the larger `i`
first on equal scores, then the larger `j` -- not in ascending enumeration
order, so the first assigned pair is (1,1), not (0,0). -/
theorem C6_counterexample :
    sortedCandidates llmC6 indraC6 (mkRat 1 2)
      = [(mkRat 14 20, 1, 1), (mkRat 14 20, 1, 0), (mkRat 14 20, 0, 1), (mkRat 14 20, 0, 0)] ∧
    ¬ tieAscending (sortedCandidates llmC6 indraC6 (mkRat 1 2)) ∧
    (find_best_matches_greedy llmC6 indraC6 (mkRat 1 2)).map
        (fun r => (r.llm_index, r.indra_index))
      = [(some 1, some 1), (some 0, some 0)] := by
  refine ⟨by decide, by decide, by decide⟩

/-- Claim C6, amended: the greedy branch processes
`sortedCandidates` in order, and that list is sorted descending
lexicographically by `(score, i, j)`: candidates are in descending score
order, and among equal scores ties are broken by the *larger* LLM index `i`
first, then the *larger* reference index `j` (the reverse of the claimed
enumeration order). -/
theorem C6_amended_tie_order (llm indra : List String) (t : ℚ) :
    (sortedCandidates llm indra t).Sorted keyGe ∧
    find_best_matches_greedy llm indra t
      = (if llm.isEmpty || indra.isEmpty then emptyCaseResults llm indra
         else addUnmatched llm indra
           ((sortedCandidates llm indra t).foldl (gStep llm indra) initState)) :=
  ⟨List.sorted_insertionSort keyGe _, rfl⟩

/-! ### Claim C9 -/

/-- Claim C9 as stated is refuted: normalization is not idempotent for every
string.  `normalize_indra_format` rewrites `A:b ! c ! d` to `A:c ! d`, and a
second application rewrites that again to `A:d`, because the first rewrite
can create a fresh `NAMESPACE:code ! name` redex. -/
theorem C9_counterexample :
    normalizeText "A:b ! c ! d".data = "A:c ! d".data ∧
    normalizeText (normalizeText "A:b ! c ! d".data) = "A:d".data ∧
    normalizeText (normalizeText "A:b ! c ! d".data) ≠ normalizeText "A:b ! c ! d".data := by
  refine ⟨by decide, by decide, by decide⟩

/-- Claim C9, amended: normalization (`normalize_indra_format` followed by
`normalize_modifications`) is not idempotent on all strings -- chained
`" ! "` segments are rewritten again by a second pass -- but it is
idempotent on the dialect statement forms the parser consumes, e.g. the
INDRA-dialect statement `p(HGNC:391 ! AKT1) increases p(HGNC:GSK3B,
pmod(go:0006468))` (both rewrites fire once) and the LLM-dialect statement
of the C2 example. -/
theorem C9_amended_idempotent_on_dialect :
    normalizeText (normalizeText
        "p(HGNC:391 ! AKT1) increases p(HGNC:GSK3B, pmod(go:0006468))".data)
      = normalizeText "p(HGNC:391 ! AKT1) increases p(HGNC:GSK3B, pmod(go:0006468))".data ∧
    normalizeText "p(HGNC:391 ! AKT1) increases p(HGNC:GSK3B, pmod(go:0006468))".data
      = "p(HGNC:AKT1) increases p(HGNC:GSK3B, pmod(Ph))".data ∧
    normalizeText (normalizeText
        "p(HGNC:AKT1) directlyIncreases p(HGNC:GSK3B, pmod(Ph))".data)
      = normalizeText "p(HGNC:AKT1) directlyIncreases p(HGNC:GSK3B, pmod(Ph))".data := by
  refine ⟨by decide, by decide, by decide⟩

/-! ### Claim C10 -/

/-- Claim C10, confirmed: when the normalized span starts with `complex(`,
`parse_component` routes to `_parse_complex`, which marks the component as a
complex, never sets activity or modification (any `pmod(...)`, `act(...)` or
`ma(...)` text inside is discarded), takes as members exactly the entities
extracted from the `p(...)` sub-terms in order, and uses the first member as
the core entity when one exists. -/
theorem parse_complex_members (n : List Char) :
    (parse_complex n).complex_members = (pTermsFind n).map extract_entity := rfl

theorem parse_complex_core (n : List Char) :
    (parse_complex n).core_entity = complexCore ((pTermsFind n).map extract_entity) n := rfl

theorem C10_complex_component (s : List Char)
    (h : hasPre "complex(".data (normalizeText (pyStrip s)) = true) :
    parse_component s = parse_complex (normalizeText (pyStrip s)) ∧
    (parse_component s).is_complex = true ∧
    (parse_component s).has_activity = false ∧
    (parse_component s).activity_type = none ∧
    (parse_component s).modification = none ∧
    (parse_component s).complex_members
      = (pTermsFind (normalizeText (pyStrip s))).map extract_entity ∧
    (∀ e rest, (parse_component s).complex_members = e :: rest →
      (parse_component s).core_entity = e) := by
  have hd : parse_component s
      = componentBranch (pyStrip s) (normalizeText (pyStrip s))
          (hasPre "complex(".data (normalizeText (pyStrip s))) := rfl
  have hc : parse_component s = parse_complex (normalizeText (pyStrip s)) := by
    rw [hd, h]
    rfl
  refine ⟨hc, by rw [hc]; rfl, by rw [hc]; rfl, by rw [hc]; rfl, by rw [hc]; rfl,
    by rw [hc]; exact parse_complex_members _, ?_⟩
  intro e rest hmem
  rw [hc, parse_complex_members] at hmem
  rw [hc, parse_complex_core, hmem]
  rfl

/-- Witness for C10 at a concrete complex span. -/
theorem C10_witness :
    parse_component "complex(p(HGNC:JUN), p(HGNC:FOS))".data
        = parse_complex (normalizeText (pyStrip "complex(p(HGNC:JUN), p(HGNC:FOS))".data)) ∧
    (parse_component "complex(p(HGNC:JUN), p(HGNC:FOS))".data).is_complex = true ∧
    (parse_component "complex(p(HGNC:JUN), p(HGNC:FOS))".data).has_activity = false ∧
    (parse_component "complex(p(HGNC:JUN), p(HGNC:FOS))".data).activity_type = none ∧
    (parse_component "complex(p(HGNC:JUN), p(HGNC:FOS))".data).modification = none ∧
    (parse_component "complex(p(HGNC:JUN), p(HGNC:FOS))".data).complex_members
      = (pTermsFind (normalizeText
          (pyStrip "complex(p(HGNC:JUN), p(HGNC:FOS))".data))).map extract_entity ∧
    (∀ e rest,
      (parse_component "complex(p(HGNC:JUN), p(HGNC:FOS))".data).complex_members = e :: rest →
      (parse_component "complex(p(HGNC:JUN), p(HGNC:FOS))".data).core_entity = e) :=
  C10_complex_component "complex(p(HGNC:JUN), p(HGNC:FOS))".data (by decide)

/-! ### Claim C7 -/

theorem only_not_matched :
    ((("llm_only" : String) == "core_match") || (("llm_only" : String) == "exact_match")) = false ∧
    ((("indra_only" : String) == "core_match") || (("indra_only" : String) == "exact_match")) = false := by
  refine ⟨by decide, by decide⟩

/-- No record of the degenerate branch is a matched pair. -/
theorem emptyCase_no_matched (llm indra : List String) (i j : Nat) :
    ∀ r ∈ emptyCaseResults llm indra, isMatchedPair r i j = false := by
  intro r hr
  unfold emptyCaseResults at hr
  rcases List.mem_append.mp hr with h | h <;> obtain ⟨x, _, rfl⟩ := List.mem_map.mp h
  · simp [isMatchedPair, llmOnlyRes, only_not_matched.1]
  · simp [isMatchedPair, indraOnlyRes, only_not_matched.2]

/-- A matched record of the full result list comes from the assignment
state, not from the trailing unmatched loops. -/
theorem addUnmatched_matched_mem (llm indra : List String) (st : GState) (i j : Nat)
    (r : MatchResult) (hr : r ∈ addUnmatched llm indra st)
    (hm : isMatchedPair r i j = true) : r ∈ st.results := by
  unfold addUnmatched at hr
  rcases List.mem_append.mp hr with h | h
  · rcases List.mem_append.mp h with h | h
    · exact h
    · obtain ⟨x, _, hx⟩ := List.mem_filterMap.mp h
      split_ifs at hx
      rcases Option.some_inj.mp hx with rfl
      simp [isMatchedPair, llmOnlyRes, only_not_matched.1] at hm
  · obtain ⟨x, _, hx⟩ := List.mem_filterMap.mp h
    split_ifs at hx
    rcases Option.some_inj.mp hx with rfl
    simp [isMatchedPair, indraOnlyRes, only_not_matched.2] at hm

/-- Raising the threshold shrinks the candidate list to its high-score part. -/
theorem candPairs_filter (llm indra : List String) {t1 t2 : ℚ} (h : t1 ≤ t2) :
    candPairs llm indra t2
      = (candPairs llm indra t1).filter (fun c => decide (t2 ≤ c.1)) := by
  unfold candPairs
  rw [List.filter_filter]
  apply List.filter_congr
  intro c _
  by_cases h2 : t2 ≤ c.1
  · have h1 : t1 ≤ c.1 := le_trans h h2
    simp [h1, h2]
  · simp [h2]

theorem sorted_sortedCandidates (llm indra : List String) (t : ℚ) :
    (sortedCandidates llm indra t).Sorted keyGe :=
  List.sorted_insertionSort keyGe _

/-- The keys of the candidate tuples are pairwise distinct (each `(i, j)`
appears once), so descending order is unique: sorting after filtering equals
filtering the sorted list. -/
theorem sortedCandidates_filter (llm indra : List String) {t1 t2 : ℚ} (h : t1 ≤ t2) :
    sortedCandidates llm indra t2
      = (sortedCandidates llm indra t1).filter (fun c => decide (t2 ≤ c.1)) := by
  refine List.eq_of_perm_of_sorted ?_ (sorted_sortedCandidates llm indra t2)
    ((sorted_sortedCandidates llm indra t1).filter _)
  have h1 : (sortedCandidates llm indra t2).Perm
      ((candPairs llm indra t1).filter (fun c => decide (t2 ≤ c.1))) := by
    rw [← candPairs_filter llm indra h]
    exact List.perm_insertionSort _ _
  have h2 : ((candPairs llm indra t1).filter (fun c => decide (t2 ≤ c.1))).Perm
      ((sortedCandidates llm indra t1).filter (fun c => decide (t2 ≤ c.1))) :=
    ((List.perm_insertionSort _ _).symm).filter _
  exact h1.trans h2

theorem keyGe_score_le {a b : ℚ × Nat × Nat} (h : keyGe a b) : b.1 ≤ a.1 := by
  rcases h with h | ⟨e, _⟩
  · exact le_of_lt h
  · exact le_of_eq e

/-- In a descending-sorted list the high-score part is an initial segment. -/
theorem filter_takeWhile_sorted {t2 : ℚ} :
    ∀ {l : List (ℚ × Nat × Nat)}, l.Sorted keyGe →
      l.filter (fun c => decide (t2 ≤ c.1)) = l.takeWhile (fun c => decide (t2 ≤ c.1)) := by
  intro l
  induction l with
  | nil => intro _; rfl
  | cons a l ih =>
    intro hs
    by_cases ha : t2 ≤ a.1
    · rw [List.filter_cons_of_pos (by simpa using ha),
        List.takeWhile_cons_of_pos (by simpa using ha), ih hs.of_cons]
    · rw [List.filter_cons_of_neg (by simpa using ha),
        List.takeWhile_cons_of_neg (by simpa using ha)]
      rw [List.filter_eq_nil_iff]
      intro b hb
      have hba : b.1 ≤ a.1 := keyGe_score_le (List.rel_of_sorted_cons hs b hb)
      simp only [decide_eq_true_eq]
      intro ht2
      exact ha (le_trans ht2 hba)

/-- The greedy step only appends to the result list. -/
theorem gStep_mem_results (llm indra : List String) (st : GState) (c : ℚ × Nat × Nat) :
    ∀ r ∈ st.results, r ∈ (gStep llm indra st c).results := by
  intro r hr
  unfold gStep
  split_ifs
  · exact hr
  · exact List.mem_append_left _ hr

theorem foldl_gStep_mem (llm indra : List String) :
    ∀ (L : List (ℚ × Nat × Nat)) (st : GState),
      ∀ r ∈ st.results, r ∈ (L.foldl (gStep llm indra) st).results := by
  intro L
  induction L with
  | nil => intro st r hr; exact hr
  | cons c cs ih =>
    intro st r hr
    exact ih _ r (gStep_mem_results llm indra st c r hr)

/-- Results view of one optimal-branch step. -/
theorem oStep_results (llm indra : List String) (t : ℚ) (st : GState) (p : Nat × Nat) :
    (oStep llm indra t st p).results
      = if (decide (p.1 < llm.length) && decide (p.2 < indra.length))
          && (decide (t ≤ scoreAt llm indra p.1 p.2) && comparableAt llm indra p.1 p.2) then
          st.results ++ [matchedRes llm indra (scoreAt llm indra p.1 p.2) p.1 p.2]
        else st.results := by
  unfold oStep
  split_ifs with h1 h2 h3 h4 h5
  · rfl
  · exact absurd (by rw [h1, h2]; rfl) h3
  · simp only [Bool.and_eq_true] at h4
    exact absurd (by simp only [Bool.and_eq_true]; exact h4.2) h2
  · rfl
  · simp only [Bool.and_eq_true] at h5
    exact absurd (by simp only [Bool.and_eq_true]; exact h5.1) h1
  · rfl

/-- Results of the optimal-branch fold: the initial results followed by one
record for every qualifying assignment pair, in order. -/
theorem foldl_oStep_results (llm indra : List String) (t : ℚ) :
    ∀ (asg : List (Nat × Nat)) (st : GState),
      (asg.foldl (oStep llm indra t) st).results
        = st.results ++ asg.filterMap (fun p =>
            if (decide (p.1 < llm.length) && decide (p.2 < indra.length))
                && (decide (t ≤ scoreAt llm indra p.1 p.2)
                    && comparableAt llm indra p.1 p.2) then
              some (matchedRes llm indra (scoreAt llm indra p.1 p.2) p.1 p.2)
            else none) := by
  intro asg
  induction asg with
  | nil => intro st; simp
  | cons p ps ih =>
    intro st
    rw [List.foldl_cons, ih, oStep_results, List.filterMap_cons]
    split_ifs with hc
    · simp [List.append_assoc]
    · rfl

/-- Claim C7, confirmed: for `t1 ≤ t2`, every pair matched (as `core_match`
or `exact_match`) at threshold `t2` is also matched at threshold `t1`, on
the greedy branch (the `t2`-candidates are an initial segment of the
`t1`-candidates, and the greedy fold over the extension preserves every
assignment made on the prefix) and on the optimal branch under the same
solver assignment (the threshold only filters the assigned pairs). -/
theorem C7_threshold_monotonic :
    (∀ (llm indra : List String) (t1 t2 : ℚ) (i j : Nat), t1 ≤ t2 →
      (∃ r ∈ find_best_matches_greedy llm indra t2, isMatchedPair r i j = true) →
      ∃ r ∈ find_best_matches_greedy llm indra t1, isMatchedPair r i j = true) ∧
    (∀ (asg : List (Nat × Nat)) (llm indra : List String) (t1 t2 : ℚ) (i j : Nat), t1 ≤ t2 →
      (∃ r ∈ find_best_matches_opt asg llm indra t2, isMatchedPair r i j = true) →
      ∃ r ∈ find_best_matches_opt asg llm indra t1, isMatchedPair r i j = true) := by
  constructor
  · intro llm indra t1 t2 i j h12 hex
    obtain ⟨r, hr, hm⟩ := hex
    unfold find_best_matches_greedy at hr ⊢
    split_ifs at hr ⊢ with hem
    · exact absurd hm (by rw [emptyCase_no_matched llm indra i j r hr]; simp)
    · have hr2 := addUnmatched_matched_mem llm indra _ i j r hr hm
      have hsplit : sortedCandidates llm indra t1
          = sortedCandidates llm indra t2
            ++ (sortedCandidates llm indra t1).dropWhile (fun c => decide (t2 ≤ c.1)) := by
        rw [sortedCandidates_filter llm indra h12,
          filter_takeWhile_sorted (sorted_sortedCandidates llm indra t1),
          List.takeWhile_append_dropWhile]
      refine ⟨r, ?_, hm⟩
      have hmem : r ∈ ((sortedCandidates llm indra t1).foldl
          (gStep llm indra) initState).results := by
        rw [hsplit, List.foldl_append]
        exact foldl_gStep_mem llm indra _ _ r hr2
      exact List.mem_append_left _ (List.mem_append_left _ hmem)
  · intro asg llm indra t1 t2 i j h12 hex
    obtain ⟨r, hr, hm⟩ := hex
    unfold find_best_matches_opt at hr ⊢
    split_ifs at hr ⊢ with hem
    · exact absurd hm (by rw [emptyCase_no_matched llm indra i j r hr]; simp)
    · have hr2 := addUnmatched_matched_mem llm indra _ i j r hr hm
      rw [foldl_oStep_results llm indra t2 asg initState] at hr2
      simp only [initState, List.nil_append] at hr2
      obtain ⟨p, hp, hfp⟩ := List.mem_filterMap.mp hr2
      split_ifs at hfp with hc2
      rcases Option.some_inj.mp hfp with rfl
      simp only [Bool.and_eq_true] at hc2
      obtain ⟨⟨hq1, hq2⟩, hs2, hcp⟩ := hc2
      have hcnd : ((decide (p.1 < llm.length) && decide (p.2 < indra.length))
          && (decide (t1 ≤ scoreAt llm indra p.1 p.2)
              && comparableAt llm indra p.1 p.2)) = true := by
        simp only [Bool.and_eq_true]
        exact ⟨⟨hq1, hq2⟩, decide_eq_true (le_trans h12 (of_decide_eq_true hs2)), hcp⟩
      refine ⟨matchedRes llm indra (scoreAt llm indra p.1 p.2) p.1 p.2, ?_, hm⟩
      refine List.mem_append_left _ (List.mem_append_left _ ?_)
      rw [foldl_oStep_results llm indra t1 asg initState]
      simp only [initState, List.nil_append]
      refine List.mem_filterMap.mpr ⟨p, hp, ?_⟩
      rw [if_pos hcnd]

/-- Witness for C7 at a concrete run: the C2 pair is matched at threshold
0.65 and therefore also at the lower threshold 0.5. -/
theorem C7_witness :
    (mkRat 1 2 : ℚ) ≤ mkRat 13 20 ∧
    ∃ r ∈ find_best_matches_greedy
      ["p(HGNC:AKT1) directlyIncreases p(HGNC:GSK3B, pmod(Ph))"]
      ["p(HGNC:AKT1) increases p(HGNC:GSK3B, pmod(Ph))"] (mkRat 1 2),
      isMatchedPair r 0 0 = true :=
  ⟨by decide,
    C7_threshold_monotonic.1
      ["p(HGNC:AKT1) directlyIncreases p(HGNC:GSK3B, pmod(Ph))"]
      ["p(HGNC:AKT1) increases p(HGNC:GSK3B, pmod(Ph))"]
      (mkRat 1 2) (mkRat 13 20) 0 0 (by decide) (by decide)⟩

/-! ### Claim C8 -/

/-- Number of result records whose LLM provenance is index `i`. -/
def countL (rs : List MatchResult) (i : Nat) : Nat :=
  rs.countP (fun r => r.llm_index == some i)

/-- Number of result records whose reference provenance is index `j`. -/
def countR (rs : List MatchResult) (j : Nat) : Nat :=
  rs.countP (fun r => r.indra_index == some j)

theorem countL_append (a b : List MatchResult) (i : Nat) :
    countL (a ++ b) i = countL a i + countL b i :=
  List.countP_append _ _ _

theorem countR_append (a b : List MatchResult) (j : Nat) :
    countR (a ++ b) j = countR a j + countR b j :=
  List.countP_append _ _ _

/-- Bool-to-Prop view of list containment on indices. -/
theorem contains_prop (l : List Nat) (a : Nat) : l.contains a = true ↔ a ∈ l := by
  simp [List.contains, List.elem_eq_mem]

/-- Appending one matched record extends the LLM count invariant, provided
its LLM index is fresh. -/
theorem append_one_countL (llm indra : List String) (i i0 j0 : Nat) (sc : ℚ)
    (results : List MatchResult) (ml : List Nat)
    (hml : i0 ∉ ml) (hst : countL results i = if i ∈ ml then 1 else 0) :
    countL (results ++ [matchedRes llm indra sc i0 j0]) i
      = if i ∈ ml ++ [i0] then 1 else 0 := by
  rw [countL_append]
  by_cases hi : i0 = i
  · subst hi
    rw [hst, if_neg hml]
    have h1 : countL [matchedRes llm indra sc i0 j0] i0 = 1 := by
      simp [countL, matchedRes]
    rw [h1, if_pos (by simp)]
  · have hne := Ne.symm hi
    have h0 : countL [matchedRes llm indra sc i0 j0] i = 0 := by
      simp [countL, matchedRes, hi]
    rw [h0, hst]
    simp [List.mem_append, hne]

/-- Appending one matched record extends the reference count invariant,
provided its reference index is fresh. -/
theorem append_one_countR (llm indra : List String) (j i0 j0 : Nat) (sc : ℚ)
    (results : List MatchResult) (mr : List Nat)
    (hmr : j0 ∉ mr) (hst : countR results j = if j ∈ mr then 1 else 0) :
    countR (results ++ [matchedRes llm indra sc i0 j0]) j
      = if j ∈ mr ++ [j0] then 1 else 0 := by
  rw [countR_append]
  by_cases hj : j0 = j
  · subst hj
    rw [hst, if_neg hmr]
    have h1 : countR [matchedRes llm indra sc i0 j0] j0 = 1 := by
      simp [countR, matchedRes]
    rw [h1, if_pos (by simp)]
  · have hne := Ne.symm hj
    have h0 : countR [matchedRes llm indra sc i0 j0] j = 0 := by
      simp [countR, matchedRes, hj]
    rw [h0, hst]
    simp [List.mem_append, hne]

/-- The guard of the greedy step in propositional form. -/
theorem gStep_guard {st : GState} {c : ℚ × Nat × Nat}
    (hg : ¬(st.ml.contains c.2.1 || st.mr.contains c.2.2) = true) :
    c.2.1 ∉ st.ml ∧ c.2.2 ∉ st.mr := by
  simp only [Bool.or_eq_true, contains_prop, not_or] at hg
  exact hg

/-- One greedy step preserves the per-index count invariant (LLM side). -/
theorem gStep_countL (llm indra : List String) (i : Nat) (st : GState) (c : ℚ × Nat × Nat)
    (hst : countL st.results i = if i ∈ st.ml then 1 else 0) :
    countL (gStep llm indra st c).results i
      = if i ∈ (gStep llm indra st c).ml then 1 else 0 := by
  by_cases hg : (st.ml.contains c.2.1 || st.mr.contains c.2.2) = true
  · have he : gStep llm indra st c = st := by unfold gStep; exact if_pos hg
    rw [he]
    exact hst
  · have he : gStep llm indra st c
        = { results := st.results ++ [matchedRes llm indra c.1 c.2.1 c.2.2],
            ml := st.ml ++ [c.2.1], mr := st.mr ++ [c.2.2] } := by
      unfold gStep; exact if_neg hg
    rw [he]
    exact append_one_countL llm indra i c.2.1 c.2.2 c.1 st.results st.ml
      (gStep_guard hg).1 hst

/-- One greedy step preserves the per-index count invariant (reference
side). -/
theorem gStep_countR (llm indra : List String) (j : Nat) (st : GState) (c : ℚ × Nat × Nat)
    (hst : countR st.results j = if j ∈ st.mr then 1 else 0) :
    countR (gStep llm indra st c).results j
      = if j ∈ (gStep llm indra st c).mr then 1 else 0 := by
  by_cases hg : (st.ml.contains c.2.1 || st.mr.contains c.2.2) = true
  · have he : gStep llm indra st c = st := by unfold gStep; exact if_pos hg
    rw [he]
    exact hst
  · have he : gStep llm indra st c
        = { results := st.results ++ [matchedRes llm indra c.1 c.2.1 c.2.2],
            ml := st.ml ++ [c.2.1], mr := st.mr ++ [c.2.2] } := by
      unfold gStep; exact if_neg hg
    rw [he]
    exact append_one_countR llm indra j c.2.1 c.2.2 c.1 st.results st.mr
      (gStep_guard hg).2 hst

theorem foldl_gStep_countL (llm indra : List String) (i : Nat) :
    ∀ (L : List (ℚ × Nat × Nat)) (st : GState),
      countL st.results i = (if i ∈ st.ml then 1 else 0) →
      countL ((L.foldl (gStep llm indra) st).results) i
        = if i ∈ (L.foldl (gStep llm indra) st).ml then 1 else 0 := by
  intro L
  induction L with
  | nil => intro st hst; exact hst
  | cons c cs ih => intro st hst; exact ih _ (gStep_countL llm indra i st c hst)

theorem foldl_gStep_countR (llm indra : List String) (j : Nat) :
    ∀ (L : List (ℚ × Nat × Nat)) (st : GState),
      countR st.results j = (if j ∈ st.mr then 1 else 0) →
      countR ((L.foldl (gStep llm indra) st).results) j
        = if j ∈ (L.foldl (gStep llm indra) st).mr then 1 else 0 := by
  intro L
  induction L with
  | nil => intro st hst; exact hst
  | cons c cs ih => intro st hst; exact ih _ (gStep_countR llm indra j st c hst)

/-- State view of one optimal-branch step. -/
theorem oStep_eq (llm indra : List String) (t : ℚ) (st : GState) (p : Nat × Nat) :
    oStep llm indra t st p
      = if ((decide (p.1 < llm.length) && decide (p.2 < indra.length))
          && (decide (t ≤ scoreAt llm indra p.1 p.2)
              && comparableAt llm indra p.1 p.2)) = true then
          { results := st.results
              ++ [matchedRes llm indra (scoreAt llm indra p.1 p.2) p.1 p.2],
            ml := st.ml ++ [p.1], mr := st.mr ++ [p.2] }
        else st := by
  unfold oStep
  split_ifs with h1 h2 h3 h4 h5
  · rfl
  · exact absurd (by rw [h1, h2]; rfl) h3
  · simp only [Bool.and_eq_true] at h4
    exact absurd (by simp only [Bool.and_eq_true]; exact h4.2) h2
  · rfl
  · simp only [Bool.and_eq_true] at h5
    exact absurd (by simp only [Bool.and_eq_true]; exact h5.1) h1
  · rfl

theorem oStep_countL (llm indra : List String) (t : ℚ) (i : Nat) (st : GState)
    (p : Nat × Nat) (hp : p.1 ∉ st.ml)
    (hst : countL st.results i = if i ∈ st.ml then 1 else 0) :
    countL (oStep llm indra t st p).results i
      = if i ∈ (oStep llm indra t st p).ml then 1 else 0 := by
  by_cases hC : ((decide (p.1 < llm.length) && decide (p.2 < indra.length))
      && (decide (t ≤ scoreAt llm indra p.1 p.2) && comparableAt llm indra p.1 p.2)) = true
  · rw [oStep_eq, if_pos hC]
    exact append_one_countL llm indra i p.1 p.2 _ st.results st.ml hp hst
  · rw [oStep_eq, if_neg hC]
    exact hst

theorem oStep_countR (llm indra : List String) (t : ℚ) (j : Nat) (st : GState)
    (p : Nat × Nat) (hp : p.2 ∉ st.mr)
    (hst : countR st.results j = if j ∈ st.mr then 1 else 0) :
    countR (oStep llm indra t st p).results j
      = if j ∈ (oStep llm indra t st p).mr then 1 else 0 := by
  by_cases hC : ((decide (p.1 < llm.length) && decide (p.2 < indra.length))
      && (decide (t ≤ scoreAt llm indra p.1 p.2) && comparableAt llm indra p.1 p.2)) = true
  · rw [oStep_eq, if_pos hC]
    exact append_one_countR llm indra j p.1 p.2 _ st.results st.mr hp hst
  · rw [oStep_eq, if_neg hC]
    exact hst

/-- The matched-set components only grow along the optimal fold steps. -/
theorem oStep_ml_sub (llm indra : List String) (t : ℚ) (st : GState) (p : Nat × Nat) :
    ∀ x ∈ st.ml, x ∈ (oStep llm indra t st p).ml := by
  intro x hx
  rw [oStep_eq]
  split_ifs
  · exact List.mem_append_left _ hx
  · exact hx

theorem foldl_oStep_countL (llm indra : List String) (t : ℚ) (i : Nat) :
    ∀ (asg : List (Nat × Nat)) (st : GState),
      (∀ p ∈ asg, p.1 ∉ st.ml) → (asg.map Prod.fst).Nodup →
      countL st.results i = (if i ∈ st.ml then 1 else 0) →
      countL ((asg.foldl (oStep llm indra t) st).results) i
        = if i ∈ (asg.foldl (oStep llm indra t) st).ml then 1 else 0 := by
  intro asg
  induction asg with
  | nil => intro st _ _ hst; exact hst
  | cons p ps ih =>
    intro st hpre hnd st_inv
    rw [List.foldl_cons]
    have hmap : ((p :: ps).map Prod.fst) = p.1 :: ps.map Prod.fst := rfl
    rw [hmap] at hnd
    obtain ⟨hp1, hnd'⟩ := List.nodup_cons.mp hnd
    refine ih _ ?_ hnd'
      (oStep_countL llm indra t i st p (hpre p (List.mem_cons_self _ _)) st_inv)
    intro q hq
    rw [oStep_eq]
    split_ifs with hC
    · show q.1 ∉ st.ml ++ [p.1]
      simp only [List.mem_append, List.mem_singleton, not_or]
      refine ⟨hpre q (List.mem_cons_of_mem _ hq), ?_⟩
      intro he
      exact hp1 (he ▸ List.mem_map_of_mem Prod.fst hq)
    · exact hpre q (List.mem_cons_of_mem _ hq)

theorem foldl_oStep_countR (llm indra : List String) (t : ℚ) (j : Nat) :
    ∀ (asg : List (Nat × Nat)) (st : GState),
      (∀ p ∈ asg, p.2 ∉ st.mr) → (asg.map Prod.snd).Nodup →
      countR st.results j = (if j ∈ st.mr then 1 else 0) →
      countR ((asg.foldl (oStep llm indra t) st).results) j
        = if j ∈ (asg.foldl (oStep llm indra t) st).mr then 1 else 0 := by
  intro asg
  induction asg with
  | nil => intro st _ _ hst; exact hst
  | cons p ps ih =>
    intro st hpre hnd st_inv
    rw [List.foldl_cons]
    have hmap : ((p :: ps).map Prod.snd) = p.2 :: ps.map Prod.snd := rfl
    rw [hmap] at hnd
    obtain ⟨hp2, hnd'⟩ := List.nodup_cons.mp hnd
    refine ih _ ?_ hnd'
      (oStep_countR llm indra t j st p (hpre p (List.mem_cons_self _ _)) st_inv)
    intro q hq
    rw [oStep_eq]
    split_ifs with hC
    · show q.2 ∉ st.mr ++ [p.2]
      simp only [List.mem_append, List.mem_singleton, not_or]
      refine ⟨hpre q (List.mem_cons_of_mem _ hq), ?_⟩
      intro he
      exact hp2 (he ▸ List.mem_map_of_mem Prod.snd hq)
    · exact hpre q (List.mem_cons_of_mem _ hq)

theorem countL_cons (r : MatchResult) (rs : List MatchResult) (i : Nat) :
    countL (r :: rs) i = countL rs i + (if (r.llm_index == some i) then 1 else 0) :=
  List.countP_cons _ _ _

theorem countR_cons (r : MatchResult) (rs : List MatchResult) (j : Nat) :
    countR (r :: rs) j = countR rs j + (if (r.indra_index == some j) then 1 else 0) :=
  List.countP_cons _ _ _

/-- LLM count of the unmatched-fill loop over a duplicate-free index list. -/
theorem countL_llmOnly_filterMap (llm : List String) (ml : List Nat) (i : Nat) :
    ∀ (L : List Nat), L.Nodup →
      countL (L.filterMap fun x =>
          if ml.contains x then none else some (llmOnlyRes llm x)) i
        = if i ∈ L ∧ i ∉ ml then 1 else 0 := by
  intro L
  induction L with
  | nil => intro _; simp [countL]
  | cons x xs ih =>
    intro hnd
    obtain ⟨hx, hnd'⟩ := List.nodup_cons.mp hnd
    by_cases hcx : ml.contains x = true
    · have hfm : ((x :: xs).filterMap fun y =>
          if ml.contains y then none else some (llmOnlyRes llm y))
          = xs.filterMap fun y =>
              if ml.contains y then none else some (llmOnlyRes llm y) := by
        rw [List.filterMap_cons, if_pos hcx]
      rw [hfm, ih hnd']
      have hxm : x ∈ ml := (contains_prop ml x).mp hcx
      by_cases hxi : x = i
      · subst hxi
        rw [if_neg (fun hc => hc.2 hxm), if_neg (fun hc => hc.2 hxm)]
      · have hne : i ≠ x := Ne.symm hxi
        have hmm : (i ∈ x :: xs ∧ i ∉ ml) ↔ (i ∈ xs ∧ i ∉ ml) := by
          constructor
          · rintro ⟨hm, hnm⟩
            rcases List.mem_cons.mp hm with he | hm2
            · exact absurd he hne
            · exact ⟨hm2, hnm⟩
          · rintro ⟨hm, hnm⟩
            exact ⟨List.mem_cons_of_mem _ hm, hnm⟩
        rw [if_congr hmm rfl rfl]
    · have hfm : ((x :: xs).filterMap fun y =>
          if ml.contains y then none else some (llmOnlyRes llm y))
          = llmOnlyRes llm x :: (xs.filterMap fun y =>
              if ml.contains y then none else some (llmOnlyRes llm y)) := by
        rw [List.filterMap_cons, if_neg hcx]
      have hxm : x ∉ ml := fun hmem => hcx ((contains_prop ml x).mpr hmem)
      rw [hfm, countL_cons, ih hnd']
      by_cases hxi : x = i
      · subst hxi
        have hpred : ((llmOnlyRes llm x).llm_index == some x) = true := by
          simp [llmOnlyRes]
        rw [if_pos hpred, if_neg (fun hc => hx hc.1),
          if_pos ⟨List.mem_cons_self _ _, hxm⟩]
      · have hne : i ≠ x := Ne.symm hxi
        have hpred : ((llmOnlyRes llm x).llm_index == some i) = false := by
          simp [llmOnlyRes, hxi]
        have hmm : (i ∈ x :: xs ∧ i ∉ ml) ↔ (i ∈ xs ∧ i ∉ ml) := by
          constructor
          · rintro ⟨hm, hnm⟩
            rcases List.mem_cons.mp hm with he | hm2
            · exact absurd he hne
            · exact ⟨hm2, hnm⟩
          · rintro ⟨hm, hnm⟩
            exact ⟨List.mem_cons_of_mem _ hm, hnm⟩
        rw [hpred, if_neg Bool.false_ne_true, Nat.add_zero, if_congr hmm rfl rfl]

/-- Reference count of the unmatched-fill loop over a duplicate-free index
list. -/
theorem countR_indraOnly_filterMap (indra : List String) (mr : List Nat) (j : Nat) :
    ∀ (L : List Nat), L.Nodup →
      countR (L.filterMap fun x =>
          if mr.contains x then none else some (indraOnlyRes indra x)) j
        = if j ∈ L ∧ j ∉ mr then 1 else 0 := by
  intro L
  induction L with
  | nil => intro _; simp [countR]
  | cons x xs ih =>
    intro hnd
    obtain ⟨hx, hnd'⟩ := List.nodup_cons.mp hnd
    by_cases hcx : mr.contains x = true
    · have hfm : ((x :: xs).filterMap fun y =>
          if mr.contains y then none else some (indraOnlyRes indra y))
          = xs.filterMap fun y =>
              if mr.contains y then none else some (indraOnlyRes indra y) := by
        rw [List.filterMap_cons, if_pos hcx]
      rw [hfm, ih hnd']
      have hxm : x ∈ mr := (contains_prop mr x).mp hcx
      by_cases hxi : x = j
      · subst hxi
        rw [if_neg (fun hc => hc.2 hxm), if_neg (fun hc => hc.2 hxm)]
      · have hne : j ≠ x := Ne.symm hxi
        have hmm : (j ∈ x :: xs ∧ j ∉ mr) ↔ (j ∈ xs ∧ j ∉ mr) := by
          constructor
          · rintro ⟨hm, hnm⟩
            rcases List.mem_cons.mp hm with he | hm2
            · exact absurd he hne
            · exact ⟨hm2, hnm⟩
          · rintro ⟨hm, hnm⟩
            exact ⟨List.mem_cons_of_mem _ hm, hnm⟩
        rw [if_congr hmm rfl rfl]
    · have hfm : ((x :: xs).filterMap fun y =>
          if mr.contains y then none else some (indraOnlyRes indra y))
          = indraOnlyRes indra x :: (xs.filterMap fun y =>
              if mr.contains y then none else some (indraOnlyRes indra y)) := by
        rw [List.filterMap_cons, if_neg hcx]
      have hxm : x ∉ mr := fun hmem => hcx ((contains_prop mr x).mpr hmem)
      rw [hfm, countR_cons, ih hnd']
      by_cases hxi : x = j
      · subst hxi
        have hpred : ((indraOnlyRes indra x).indra_index == some x) = true := by
          simp [indraOnlyRes]
        rw [if_pos hpred, if_neg (fun hc => hx hc.1),
          if_pos ⟨List.mem_cons_self _ _, hxm⟩]
      · have hne : j ≠ x := Ne.symm hxi
        have hpred : ((indraOnlyRes indra x).indra_index == some j) = false := by
          simp [indraOnlyRes, hxi]
        have hmm : (j ∈ x :: xs ∧ j ∉ mr) ↔ (j ∈ xs ∧ j ∉ mr) := by
          constructor
          · rintro ⟨hm, hnm⟩
            rcases List.mem_cons.mp hm with he | hm2
            · exact absurd he hne
            · exact ⟨hm2, hnm⟩
          · rintro ⟨hm, hnm⟩
            exact ⟨List.mem_cons_of_mem _ hm, hnm⟩
        rw [hpred, if_neg Bool.false_ne_true, Nat.add_zero, if_congr hmm rfl rfl]

/-- The trailing loops bring the total LLM count of every in-range index to
exactly one. -/
theorem addUnmatched_countL (llm indra : List String) (st : GState) (i : Nat)
    (hi : i < llm.length)
    (hst : countL st.results i = if i ∈ st.ml then 1 else 0) :
    countL (addUnmatched llm indra st) i = 1 := by
  unfold addUnmatched
  rw [countL_append, countL_append, hst,
    countL_llmOnly_filterMap llm st.ml i (List.range llm.length) (List.nodup_range _)]
  have hz : countL ((List.range indra.length).filterMap fun x =>
      if st.mr.contains x then none else some (indraOnlyRes indra x)) i = 0 := by
    rw [countL, List.countP_eq_zero]
    intro r hr
    obtain ⟨x, _, hx⟩ := List.mem_filterMap.mp hr
    split_ifs at hx
    rcases Option.some_inj.mp hx with rfl
    simp [indraOnlyRes]
  rw [hz]
  have him : i ∈ List.range llm.length := List.mem_range.mpr hi
  by_cases hml : i ∈ st.ml
  · simp [hml, him]
  · simp [hml, him]

/-- The trailing loops bring the total reference count of every in-range
index to exactly one. -/
theorem addUnmatched_countR (llm indra : List String) (st : GState) (j : Nat)
    (hj : j < indra.length)
    (hst : countR st.results j = if j ∈ st.mr then 1 else 0) :
    countR (addUnmatched llm indra st) j = 1 := by
  unfold addUnmatched
  rw [countR_append, countR_append, hst,
    countR_indraOnly_filterMap indra st.mr j (List.range indra.length) (List.nodup_range _)]
  have hz : countR ((List.range llm.length).filterMap fun x =>
      if st.ml.contains x then none else some (llmOnlyRes llm x)) j = 0 := by
    rw [countR, List.countP_eq_zero]
    intro r hr
    obtain ⟨x, _, hx⟩ := List.mem_filterMap.mp hr
    split_ifs at hx
    rcases Option.some_inj.mp hx with rfl
    simp [llmOnlyRes]
  rw [hz]
  have hjm : j ∈ List.range indra.length := List.mem_range.mpr hj
  by_cases hmr : j ∈ st.mr
  · simp [hmr, hjm]
  · simp [hmr, hjm]

/-- LLM count of the degenerate branch. -/
theorem emptyCase_countL (llm indra : List String) (i : Nat) (hi : i < llm.length) :
    countL (emptyCaseResults llm indra) i = 1 := by
  unfold emptyCaseResults
  rw [countL_append]
  have h1 : countL ((List.range llm.length).map (llmOnlyRes llm)) i = 1 := by
    rw [countL, List.countP_map]
    have hp : ((fun r => r.llm_index == some i) ∘ llmOnlyRes llm) = (fun x => x == i) := by
      funext x
      simp [llmOnlyRes, Function.comp]
    rw [hp]
    exact List.count_eq_one_of_mem (List.nodup_range _) (List.mem_range.mpr hi)
  have h2 : countL ((List.range indra.length).map (indraOnlyRes indra)) i = 0 := by
    rw [countL, List.countP_eq_zero]
    intro r hr
    obtain ⟨x, _, rfl⟩ := List.mem_map.mp hr
    simp [indraOnlyRes]
  rw [h1, h2]

/-- Reference count of the degenerate branch. -/
theorem emptyCase_countR (llm indra : List String) (j : Nat) (hj : j < indra.length) :
    countR (emptyCaseResults llm indra) j = 1 := by
  unfold emptyCaseResults
  rw [countR_append]
  have h1 : countR ((List.range llm.length).map (llmOnlyRes llm)) j = 0 := by
    rw [countR, List.countP_eq_zero]
    intro r hr
    obtain ⟨x, _, rfl⟩ := List.mem_map.mp hr
    simp [llmOnlyRes]
  have h2 : countR ((List.range indra.length).map (indraOnlyRes indra)) j = 1 := by
    rw [countR, List.countP_map]
    have hp : ((fun r => r.indra_index == some j) ∘ indraOnlyRes indra) = (fun x => x == j) := by
      funext x
      simp [indraOnlyRes, Function.comp]
    rw [hp]
    exact List.count_eq_one_of_mem (List.nodup_range _) (List.mem_range.mpr hj)
  rw [h1, h2]

/-- Claim C8, confirmed: on both branches (the optimal branch under the
solver contract of pairwise-distinct rows and columns) and on the
degenerate branch, every in-range LLM index and every in-range reference
index appears in exactly one returned record -- so no index appears in more
than one match record, and every input statement is represented exactly
once (matched, `llm_only`, or `indra_only`). -/
theorem C8_one_to_one :
    (∀ (llm indra : List String) (t : ℚ) (i : Nat), i < llm.length →
      countL (find_best_matches_greedy llm indra t) i = 1) ∧
    (∀ (llm indra : List String) (t : ℚ) (j : Nat), j < indra.length →
      countR (find_best_matches_greedy llm indra t) j = 1) ∧
    (∀ (asg : List (Nat × Nat)) (llm indra : List String) (t : ℚ) (i : Nat),
      i < llm.length → (asg.map Prod.fst).Nodup →
      countL (find_best_matches_opt asg llm indra t) i = 1) ∧
    (∀ (asg : List (Nat × Nat)) (llm indra : List String) (t : ℚ) (j : Nat),
      j < indra.length → (asg.map Prod.snd).Nodup →
      countR (find_best_matches_opt asg llm indra t) j = 1) := by
  refine ⟨?_, ?_, ?_, ?_⟩
  · intro llm indra t i hi
    unfold find_best_matches_greedy
    split_ifs
    · exact emptyCase_countL llm indra i hi
    · exact addUnmatched_countL llm indra _ i hi
        (foldl_gStep_countL llm indra i _ initState (by simp [initState, countL]))
  · intro llm indra t j hj
    unfold find_best_matches_greedy
    split_ifs
    · exact emptyCase_countR llm indra j hj
    · exact addUnmatched_countR llm indra _ j hj
        (foldl_gStep_countR llm indra j _ initState (by simp [initState, countR]))
  · intro asg llm indra t i hi hnd
    unfold find_best_matches_opt
    split_ifs
    · exact emptyCase_countL llm indra i hi
    · exact addUnmatched_countL llm indra _ i hi
        (foldl_oStep_countL llm indra t i asg initState
          (by intro p _; simp [initState]) hnd (by simp [initState, countL]))
  · intro asg llm indra t j hj hnd
    unfold find_best_matches_opt
    split_ifs
    · exact emptyCase_countR llm indra j hj
    · exact addUnmatched_countR llm indra _ j hj
        (foldl_oStep_countR llm indra t j asg initState
          (by intro p _; simp [initState]) hnd (by simp [initState, countR]))

/-- Witness for C8 at a concrete run: LLM statement 0 of the C2 run appears
in exactly one result. -/
theorem C8_witness :
    countL (find_best_matches_greedy
      ["p(HGNC:AKT1) directlyIncreases p(HGNC:GSK3B, pmod(Ph))"]
      ["p(HGNC:AKT1) increases p(HGNC:GSK3B, pmod(Ph))"] (mkRat 1 2)) 0 = 1 :=
  C8_one_to_one.1 ["p(HGNC:AKT1) directlyIncreases p(HGNC:GSK3B, pmod(Ph))"]
    ["p(HGNC:AKT1) increases p(HGNC:GSK3B, pmod(Ph))"] (mkRat 1 2) 0 (by decide)

end BelSpec

